import Mathlib

/-! # BTree.h : a shallow embedding

The C header `src/include/BTree.h` implements a binary search tree over opaque
payload pointers, with a comparator stored in the tree, a collapse-delete, three
traversals and a rotation-driven balance pass.

Modelling conventions.

* A `bt_Node *` is a value of `bt_Node α`: `nil` is the `NULL` pointer, `node l d r`
  is a pointer to a node with children `l`, `r` and payload `d`.  Functions that
  mutate through a `bt_Node **` return the new content of that slot.
* The payload `void *` is a value of an arbitrary type `α`; the comparator is a
  function `α → α → Int` (the C `int` result).
* A C execution with undefined behaviour (a `NULL` dereference, a write outside
  an array) is the result `none`.
* `size_t` arithmetic on `count` is taken modulo `SIZE_MOD`.
-/

set_option autoImplicit false

/-- Node of the tree (`struct bt_Node`), `nil` standing for the `NULL` pointer. -/
inductive bt_Node (α : Type) where
  | nil : bt_Node α
  | node (left : bt_Node α) (data : α) (right : bt_Node α) : bt_Node α
  deriving DecidableEq, Repr

/-- Strategies used to walk through a tree (`TraversalStrategy`). -/
inductive TraversalStrategy where
  | PRE_ORDER
  | IN_ORDER
  | POST_ORDER
  deriving DecidableEq, Repr

/-- The tree aggregate (`struct bt_Tree`); the `delete` callback is not part of
the state that insertion, removal, traversal and balancing read. -/
structure bt_Tree (α : Type) where
  root : bt_Node α
  count : Nat
  compare : α → α → Int

/-- Number of values of `size_t` (an LP64 target). -/
def SIZE_MOD : Nat := 2 ^ 64

/-- The macro `bt_max(x, y) (x > y ? x : y)`. -/
def bt_max (x y : Nat) : Nat := if x > y then x else y

/-- Length of the two history arrays of `_balance` (`#define HISTORY_LEN 5`). -/
def HISTORY_LEN : Nat := 5

namespace bt_Node

variable {α : Type}

/-- The test `node == NULL`. -/
def isNull : bt_Node α → Bool
  | nil => true
  | node _ _ _ => false

/-- The payload read through a node pointer (`node->data`), absent for `NULL`. -/
def data? : bt_Node α → Option α
  | nil => none
  | node _ d _ => some d

end bt_Node

section Operations

variable {α : Type}

/-- The comparator `_cmp_int` on the pointed-to integers. -/
def _cmp_int (d1 d2 : Int) : Int :=
  if d1 < d2 then -1
  else if d1 = d2 then 0
  else 1

/-- The function `bt_create`: an empty tree bound to the comparator. -/
def bt_create (compare : α → α → Int) : bt_Tree α :=
  { root := bt_Node.nil, count := 0, compare := compare }

/-- The function `bt_create_int`. -/
def bt_create_int : bt_Tree Int := bt_create _cmp_int

/-- The function `_add`: the new content of the slot `*node` and the returned
`0`/`1`.  The unused `parent` argument is dropped. -/
def _add (compare : α → α → Int) : bt_Node α → α → bt_Node α × Nat
  | bt_Node.nil, data => (bt_Node.node bt_Node.nil data bt_Node.nil, 1)
  | bt_Node.node l d r, data =>
    let cmp_result := compare data d
    if cmp_result ≤ -1 then
      ((bt_Node.node (_add compare l data).1 d r), (_add compare l data).2)
    else if cmp_result ≥ 1 then
      ((bt_Node.node l d (_add compare r data).1), (_add compare r data).2)
    else
      (bt_Node.node l d r, 0)

/-- The function `_clear`: the new content of the slot `*root`.  Every call site
passes a non-`NULL` node (`_remove` after its `NULL` test, `_clear` itself after
testing the child), so the `nil` row is never used. -/
def _clear : bt_Node α → bt_Node α
  | bt_Node.nil => bt_Node.nil
  | bt_Node.node (bt_Node.node ll ld lr) _ r =>
    bt_Node.node (_clear (bt_Node.node ll ld lr)) ld r
  | bt_Node.node bt_Node.nil _ (bt_Node.node rl rd rr) =>
    bt_Node.node bt_Node.nil rd (_clear (bt_Node.node rl rd rr))
  | bt_Node.node bt_Node.nil _ bt_Node.nil => bt_Node.nil

/-- The function `_remove`: the new content of the slot `*node` and the returned
`0`/`1`. -/
def _remove (compare : α → α → Int) : bt_Node α → α → bt_Node α × Nat
  | bt_Node.nil, _ => (bt_Node.nil, 0)
  | bt_Node.node l d r, data =>
    let cmp_result := compare data d
    if cmp_result = 0 then
      (_clear (bt_Node.node l d r), 1)
    else if cmp_result ≤ -1 then
      ((bt_Node.node (_remove compare l data).1 d r), (_remove compare l data).2)
    else
      ((bt_Node.node l d (_remove compare r data).1), (_remove compare r data).2)

/-- The statement `array[idx] = node` on a buffer of `array.length` slots;
a write outside the buffer is undefined. -/
def array_write (array : List (bt_Node α)) (idx : Nat) (node : bt_Node α) :
    Option (List (bt_Node α)) :=
  if idx < array.length then some (array.set idx node) else none

/-- The function `_traverse`: the buffer after the walk and the returned index.
A node pointer stored in the buffer is represented by the node it points to. -/
def _traverse (strategy : TraversalStrategy) :
    bt_Node α → List (bt_Node α) → Nat → Option (List (bt_Node α) × Nat)
  | bt_Node.nil, array, idx => some (array, idx)
  | bt_Node.node l d r, array, idx =>
    match strategy with
    | TraversalStrategy.PRE_ORDER =>
      (array_write array idx (bt_Node.node l d r)).bind fun a1 =>
      (_traverse strategy l a1 (idx + 1)).bind fun p =>
      _traverse strategy r p.1 p.2
    | TraversalStrategy.IN_ORDER =>
      (_traverse strategy l array idx).bind fun p =>
      (array_write p.1 p.2 (bt_Node.node l d r)).bind fun a1 =>
      _traverse strategy r a1 (p.2 + 1)
    | TraversalStrategy.POST_ORDER =>
      (_traverse strategy l array idx).bind fun p =>
      (_traverse strategy r p.1 p.2).bind fun q =>
      (array_write q.1 q.2 (bt_Node.node l d r)).bind fun a1 =>
      some (a1, q.2 + 1)

/-- The function `bt_traverse`: the buffer of `tree->count` node pointers after
the walk.  The fresh `malloc` block is modelled as `count` null slots. -/
def bt_traverse (tree : bt_Tree α) (strategy : TraversalStrategy) :
    Option (List (bt_Node α)) :=
  (_traverse strategy tree.root (List.replicate tree.count bt_Node.nil) 0).map Prod.fst

/-- The function `_depth_at`. -/
def _depth_at : bt_Node α → Nat
  | bt_Node.nil => 0
  | bt_Node.node l _ r =>
    let left_depth := if l.isNull then 0 else _depth_at l
    let right_depth := if r.isNull then 0 else _depth_at r
    bt_max left_depth right_depth + 1

/-- The function `_is_balanced`; the two depths are `int` in the source. -/
def _is_balanced : bt_Node α → Bool
  | bt_Node.nil => true
  | bt_Node.node l _ r =>
    let left_depth : Int := if l.isNull then 0 else (_depth_at l : Int)
    let right_depth : Int := if r.isNull then 0 else (_depth_at r : Int)
    decide (|left_depth - right_depth| ≤ 1) && _is_balanced l && _is_balanced r

/-- The function `bt_is_balanced`. -/
def bt_is_balanced (tree : bt_Tree α) : Bool := _is_balanced tree.root

/-- The function `_rotate_left`: the new content of `*rootPtr`.  The pivot
`root->right` is dereferenced without a test. -/
def _rotate_left : bt_Node α → Option (bt_Node α)
  | bt_Node.nil => some bt_Node.nil
  | bt_Node.node _ _ bt_Node.nil => none
  | bt_Node.node l d (bt_Node.node pl pd pr) =>
    some (bt_Node.node (bt_Node.node l d pl) pd pr)

/-- The function `_rotate_right`: the new content of `*rootPtr`.  Neither the
root nor the pivot `root->left` is tested before being dereferenced. -/
def _rotate_right : bt_Node α → Option (bt_Node α)
  | bt_Node.nil => none
  | bt_Node.node bt_Node.nil _ _ => none
  | bt_Node.node (bt_Node.node pl pd pr) d r =>
    some (bt_Node.node pl pd (bt_Node.node pr d r))

/-- Local variables of one activation of `_balance` while its loop runs. -/
structure BalanceFrame (α : Type) where
  root : bt_Node α
  left_history : List Nat
  right_history : List Nat
  history_curr : Nat

/-- Outcome of one pass through the body of `while (true)` in `_balance`. -/
inductive LoopStep (α : Type) where
  | exit (root : bt_Node α) : LoopStep α
  | next (frame : BalanceFrame α) : LoopStep α
  | fault : LoopStep α

/-- One pass through the body of the `while (true)` loop of `_balance`.
`exit` is a `break`; `fault` is undefined behaviour: a rotation without pivot,
or the write `left_history[history_curr]` with `history_curr ≥ HISTORY_LEN`. -/
def balance_iter (f : BalanceFrame α) : LoopStep α :=
  match f.root with
  | bt_Node.nil => LoopStep.fault
  | bt_Node.node l d r =>
    let left_depth := if l.isNull then 0 else _depth_at l
    let right_depth := if r.isNull then 0 else _depth_at r
    if f.left_history.getD 0 0 = left_depth ∧ f.right_history.getD 0 0 = right_depth then
      LoopStep.exit (bt_Node.node l d r)
    else
      let rotated : Option (Option (bt_Node α)) :=
        if right_depth > left_depth + 1 then some (_rotate_left (bt_Node.node l d r))
        else if left_depth > right_depth + 1 then some (_rotate_right (bt_Node.node l d r))
        else none
      match rotated with
      | none => LoopStep.exit (bt_Node.node l d r)
      | some none => LoopStep.fault
      | some (some root1) =>
        if f.history_curr < HISTORY_LEN then
          LoopStep.next
            { root := root1
              left_history := f.left_history.set f.history_curr left_depth
              right_history := f.right_history.set f.history_curr right_depth
              history_curr := f.history_curr + 1 % HISTORY_LEN }
        else LoopStep.fault

/-- The `while (true)` loop of `_balance`, at most `fuel` passes. -/
def balance_loop : Nat → BalanceFrame α → Option (bt_Node α)
  | 0, _ => none
  | fuel + 1, f =>
    match balance_iter f with
    | LoopStep.exit root => some root
    | LoopStep.next f1 => balance_loop fuel f1
    | LoopStep.fault => none

/-- The locals of `_balance` when the loop is entered. -/
def balance_init (root : bt_Node α) : BalanceFrame α :=
  { root := root
    left_history := List.replicate HISTORY_LEN 0
    right_history := List.replicate HISTORY_LEN 0
    history_curr := 0 }

/-- The loop of `_balance` run from its initial locals.  A pass that continues
needs `history_curr < HISTORY_LEN` and advances `history_curr`, so
`HISTORY_LEN + 1` passes always reach a `break` or a fault. -/
def balance_node (root : bt_Node α) : Option (bt_Node α) :=
  balance_loop (HISTORY_LEN + 1) (balance_init root)

/-- The function `_balance` with a bound `fuel` on the nesting of its recursive
calls: the new content of `*rootPtr`. -/
def balance_rec : Nat → bt_Node α → Option (bt_Node α)
  | _, bt_Node.nil => some bt_Node.nil
  | 0, bt_Node.node _ _ _ => none
  | fuel + 1, bt_Node.node l d r =>
    match balance_node (bt_Node.node l d r) with
    | none => none
    | some bt_Node.nil => none
    | some (bt_Node.node l1 d1 r1) =>
      (balance_rec fuel l1).bind fun l2 =>
      (balance_rec fuel r1).bind fun r2 =>
      some (bt_Node.node l2 d1 r2)

/-- Number of nodes reachable from a node pointer. -/
def node_count : bt_Node α → Nat
  | bt_Node.nil => 0
  | bt_Node.node l _ r => node_count l + 1 + node_count r

/-- The function `_balance`: the nesting of its recursive calls never exceeds the
number of nodes, see `balance_rec_fuel`. -/
def _balance (root : bt_Node α) : Option (bt_Node α) :=
  balance_rec (node_count root) root

/-- The function `bt_balance`. -/
def bt_balance (tree : bt_Tree α) : Option (bt_Tree α) :=
  (_balance tree.root).map fun root1 => { tree with root := root1 }

/-- The function `bt_add`: the tree after the call and the returned boolean. -/
def bt_add (tree : bt_Tree α) (data : α) : Option (bt_Tree α × Bool) :=
  let added := (_add tree.compare tree.root data).2
  let count1 := (tree.count + added) % SIZE_MOD
  (_balance (_add tree.compare tree.root data).1).map fun root1 =>
    ({ tree with root := root1, count := count1 }, decide (added = 1))

/-- The function `bt_remove`: the tree after the call and the returned boolean. -/
def bt_remove (tree : bt_Tree α) (data : α) : Option (bt_Tree α × Bool) :=
  let removed := (_remove tree.compare tree.root data).2
  let count1 := (tree.count + SIZE_MOD - removed % SIZE_MOD) % SIZE_MOD
  (_balance (_remove tree.compare tree.root data).1).map fun root1 =>
    ({ tree with root := root1, count := count1 }, decide (removed = 1))

/-- The loop `for (idx = 0; idx < tree->count; idx++)` of `_delete`, `n` passes
starting at `idx`: the payloads handed to `tree->delete` and the nodes handed to
`free`, in the order of the calls.  A payload is `none` when the `data` pointer
is `NULL`; reading `traversal[idx]` outside the buffer is undefined. -/
def delete_loop {β : Type} (traversal : List (bt_Node (Option β))) :
    Nat → Nat → Option (List β × List (bt_Node (Option β)))
  | 0, _ => some ([], [])
  | n + 1, idx =>
    match traversal[idx]? with
    | none => none
    | some current =>
      if current.isNull then delete_loop traversal n (idx + 1)
      else
        (delete_loop traversal n (idx + 1)).map fun rest =>
          ((match current.data? with
            | some (some p) => [p]
            | _ => []) ++ rest.1, current :: rest.2)

/-- The function `_delete`: the destructor calls and the freed nodes. -/
def _delete {β : Type} (tree : bt_Tree (Option β)) :
    Option (List β × List (bt_Node (Option β))) :=
  (bt_traverse tree TraversalStrategy.POST_ORDER).bind fun traversal =>
    delete_loop traversal tree.count 0

/-- The function `bt_delete`. -/
def bt_delete {β : Type} (tree : bt_Tree (Option β)) :
    Option (List β × List (bt_Node (Option β))) :=
  _delete tree

end Operations

section Reference

variable {α : Type}

/-- Reference order of the nodes for each strategy: `PRE_ORDER` is node, left,
right; `IN_ORDER` is left, node, right; `POST_ORDER` is left, right, node. -/
def walk (strategy : TraversalStrategy) : bt_Node α → List (bt_Node α)
  | bt_Node.nil => []
  | bt_Node.node l d r =>
    match strategy with
    | TraversalStrategy.PRE_ORDER => bt_Node.node l d r :: (walk strategy l ++ walk strategy r)
    | TraversalStrategy.IN_ORDER => walk strategy l ++ bt_Node.node l d r :: walk strategy r
    | TraversalStrategy.POST_ORDER => walk strategy l ++ (walk strategy r ++ [bt_Node.node l d r])

/-- Payloads read through a list of node pointers (`list[idx]->data`). -/
def payloads (nodes : List (bt_Node α)) : List α := nodes.filterMap bt_Node.data?

/-- Payloads of the subtree from left to right. -/
def inorder : bt_Node α → List α
  | bt_Node.nil => []
  | bt_Node.node l d r => inorder l ++ d :: inorder r

/-- Payload sequence that a caller reads from the buffer filled by `bt_traverse`. -/
def traversal_payloads (tree : bt_Tree α) (strategy : TraversalStrategy) : Option (List α) :=
  (bt_traverse tree strategy).map payloads

/-- The ordering invariant of the data model: at every node, each payload of the
left subtree compares less than the node's payload and each payload of the right
subtree compares greater. -/
def is_bst (compare : α → α → Int) : bt_Node α → Bool
  | bt_Node.nil => true
  | bt_Node.node l d r =>
    (inorder l).all (fun x => decide (compare x d ≤ -1)) &&
    (inorder r).all (fun x => decide (1 ≤ compare x d)) &&
    is_bst compare l && is_bst compare r

/-- A comparator that is a strict total order on the payloads: `≤ -1` reads
"less", `≥ 1` reads "greater", and `0` is returned exactly on equal payloads. -/
structure StrictTotalCompare (compare : α → α → Int) : Prop where
  eq_iff : ∀ a b, compare a b = 0 ↔ a = b
  swap : ∀ a b, compare a b ≤ -1 ↔ 1 ≤ compare b a
  trans : ∀ a b c, compare a b ≤ -1 → compare b c ≤ -1 → compare a c ≤ -1

/-- Calling `bt_add` on each payload of a list in turn. -/
def bt_add_all : bt_Tree α → List α → Option (bt_Tree α)
  | tree, [] => some tree
  | tree, x :: xs => (bt_add tree x).bind fun p => bt_add_all p.1 xs

/-- A call of the mutating interface. -/
inductive bt_Call (α : Type) where
  | add (data : α) : bt_Call α
  | remove (data : α) : bt_Call α

/-- A tree together with the number of `bt_add` calls and of `bt_remove` calls
that returned `true` so far. -/
structure bt_Trace (α : Type) where
  tree : bt_Tree α
  adds : Nat
  removes : Nat

/-- Running a sequence of `bt_add` / `bt_remove` calls, counting the calls that
returned `true`. -/
def bt_run : List (bt_Call α) → bt_Trace α → Option (bt_Trace α)
  | [], s => some s
  | bt_Call.add x :: cs, s =>
    (bt_add s.tree x).bind fun p =>
      bt_run cs { tree := p.1, adds := s.adds + (if p.2 then 1 else 0), removes := s.removes }
  | bt_Call.remove x :: cs, s =>
    (bt_remove s.tree x).bind fun p =>
      bt_run cs { tree := p.1, adds := s.adds, removes := s.removes + (if p.2 then 1 else 0) }

/-- The trace of a freshly created tree. -/
def bt_start (compare : α → α → Int) : bt_Trace α :=
  { tree := bt_create compare, adds := 0, removes := 0 }

/-- What holds of a trace after at most `n` calls: `count` is the number of
nodes, and it is the number of successful adds less the successful removes. -/
def trace_inv (s : bt_Trace α) (n : Nat) : Prop :=
  s.tree.count = node_count s.tree.root ∧ s.tree.count + s.removes = s.adds ∧ s.adds ≤ n

/-- The depths of the two children that the loop of `_balance` computes at a root. -/
def child_depths : bt_Node α → Nat × Nat
  | bt_Node.nil => (0, 0)
  | bt_Node.node l _ r => (_depth_at l, _depth_at r)

/-- The locals of `_balance` at the start of each of the first `n` passes through
its loop, for as long as the loop continues. -/
def balance_frames : Nat → BalanceFrame α → List (BalanceFrame α)
  | 0, _ => []
  | n + 1, f =>
    f :: (match balance_iter f with
      | LoopStep.next f1 => balance_frames n f1
      | LoopStep.exit _ => []
      | LoopStep.fault => [])

/-- The payload found by following a path from a node: `false` goes to the left
child, `true` to the right child; `none` where the path meets an empty slot. -/
def payload_at : bt_Node α → List Bool → Option α
  | bt_Node.nil, _ => none
  | bt_Node.node _ d _, [] => some d
  | bt_Node.node l _ _, false :: p => payload_at l p
  | bt_Node.node _ _ r, true :: p => payload_at r p

/-- The left-preferred path below a node: to the left child when there is one,
otherwise to the right child, ending at a leaf. -/
def left_preferred_path : bt_Node α → List Bool
  | bt_Node.nil => []
  | bt_Node.node (bt_Node.node ll ld lr) _ _ => false :: left_preferred_path (bt_Node.node ll ld lr)
  | bt_Node.node bt_Node.nil _ (bt_Node.node rl rd rr) =>
    true :: left_preferred_path (bt_Node.node rl rd rr)
  | bt_Node.node bt_Node.nil _ bt_Node.nil => []

/-- At a node, the heights of the two subtrees differ by at most one. -/
def height_gap_ok : bt_Node α → Prop
  | bt_Node.nil => True
  | bt_Node.node l _ r => _depth_at l ≤ _depth_at r + 1 ∧ _depth_at r ≤ _depth_at l + 1

/-- Every node of the tree has subtree heights that differ by at most one. -/
def every_node_balanced (t : bt_Node α) : Prop :=
  ∀ n ∈ walk TraversalStrategy.PRE_ORDER t, height_gap_ok n

end Reference

section Examples

/-- A node without children holding an integer. -/
def int_leaf (d : Int) : bt_Node Int := bt_Node.node bt_Node.nil d bt_Node.nil

/-- The node graph built by `bt_add` of 10, 5, 9, 6, 4, 8, 1, 7, 3 in this order. -/
def nine_ints : bt_Node Int :=
  bt_Node.node
    (bt_Node.node
      (bt_Node.node (bt_Node.node bt_Node.nil 1 (int_leaf 3)) 4 bt_Node.nil)
      5
      (bt_Node.node (bt_Node.node bt_Node.nil 6 (bt_Node.node (int_leaf 7) 8 bt_Node.nil)) 9
        bt_Node.nil))
    10
    bt_Node.nil

/-- The node graph built by `bt_add` of 11, 10, 1, 9, 5, 4, 3, 2, 6, 8, 7 in this order. -/
def eleven_ints : bt_Node Int :=
  bt_Node.node
    (bt_Node.node
      (bt_Node.node
        (bt_Node.node bt_Node.nil 1 (bt_Node.node (int_leaf 2) 3 bt_Node.nil)) 4 bt_Node.nil)
      5
      (bt_Node.node (bt_Node.node bt_Node.nil 6 (bt_Node.node (int_leaf 7) 8 bt_Node.nil)) 9
        bt_Node.nil))
    10
    (int_leaf 11)

/-- The subtree on which the loop of `_balance` runs out of history slots:
10 over 9 over 6, with 8 right of 6 and 7 left of 8. -/
def left_zigzag : bt_Node Int :=
  bt_Node.node
    (bt_Node.node (bt_Node.node bt_Node.nil 6 (bt_Node.node (int_leaf 7) 8 bt_Node.nil)) 9
      bt_Node.nil)
    10
    bt_Node.nil

/-- The node graph built by `bt_add` of 4, 1, 2, 3 in this order. -/
def four_ints : bt_Node Int :=
  bt_Node.node (bt_Node.node (int_leaf 1) 2 (int_leaf 3)) 4 bt_Node.nil

/-- The node graph `four_ints` after one more balance pass. -/
def four_ints_rotated : bt_Node Int :=
  bt_Node.node (int_leaf 1) 2 (bt_Node.node (int_leaf 3) 4 bt_Node.nil)

/-- An integer tree with the given node graph and count. -/
def int_tree (root : bt_Node Int) (count : Nat) : bt_Tree Int :=
  { root := root, count := count, compare := _cmp_int }

/-- A right-leaning chain of `n` integers starting at `k`. -/
def right_chain : Nat → Int → bt_Node Int
  | 0, _ => bt_Node.nil
  | n + 1, k => bt_Node.node bt_Node.nil k (right_chain n (k + 1))

/-- The node graph `left_zigzag` after one right rotation: 9 over 6 and 10. -/
def zigzag_high : bt_Node Int :=
  bt_Node.node (bt_Node.node bt_Node.nil 6 (bt_Node.node (int_leaf 7) 8 bt_Node.nil)) 9
    (int_leaf 10)

/-- The node graph `zigzag_high` after one right rotation: 6 over nothing and 9. -/
def zigzag_low : bt_Node Int :=
  bt_Node.node bt_Node.nil 6
    (bt_Node.node (bt_Node.node (int_leaf 7) 8 bt_Node.nil) 9 (int_leaf 10))

/-- The locals of `_balance` while its loop alternates between `zigzag_high` and
`zigzag_low`: slot 0 of the history holds the pair (4, 0) and at least one
rotation has been recorded. -/
def zigzag_cycle (f : BalanceFrame Int) : Prop :=
  (f.root = zigzag_high ∨ f.root = zigzag_low) ∧ f.left_history.getD 0 0 = 4 ∧
    f.right_history.getD 0 0 = 0 ∧ 1 ≤ f.history_curr

/-- The node graph built by `bt_add` of 4, 3, 5 in this order. -/
def three_ints : bt_Node Int := bt_Node.node (int_leaf 3) 4 (int_leaf 5)

end Examples

/-! ## Depth, size and reference walks -/

section Basics

variable {α : Type}

theorem depth_at_node (l r : bt_Node α) (d : α) :
    _depth_at (bt_Node.node l d r) = max (_depth_at l) (_depth_at r) + 1 := by
  have hl : (if l.isNull then 0 else _depth_at l) = _depth_at l := by
    cases l <;> simp [bt_Node.isNull, _depth_at]
  have hr : (if r.isNull then 0 else _depth_at r) = _depth_at r := by
    cases r <;> simp [bt_Node.isNull, _depth_at]
  simp only [_depth_at, hl, hr, bt_max]
  rcases Nat.lt_or_ge (_depth_at r) (_depth_at l) with h | h
  · simp [h, Nat.max_eq_left (Nat.le_of_lt h)]
  · simp [Nat.not_lt.mpr h, Nat.max_eq_right h]

theorem depth_or_zero (t : bt_Node α) :
    (if t.isNull then 0 else _depth_at t) = _depth_at t := by
  cases t <;> simp [bt_Node.isNull, _depth_at]

theorem payloads_walk_in (t : bt_Node α) :
    payloads (walk TraversalStrategy.IN_ORDER t) = inorder t := by
  induction t with
  | nil => rfl
  | node l d r ihl ihr =>
    simp only [payloads] at ihl ihr
    simp [walk, payloads, inorder, List.filterMap_append, ihl, ihr, bt_Node.data?]

theorem length_walk (s : TraversalStrategy) (t : bt_Node α) :
    (walk s t).length = node_count t := by
  induction t with
  | nil => rfl
  | node l d r ihl ihr =>
    cases s <;> simp [walk, node_count, ihl, ihr] <;> omega

theorem length_inorder (t : bt_Node α) : (inorder t).length = node_count t := by
  induction t with
  | nil => rfl
  | node l d r ihl ihr => simp [inorder, node_count, ihl, ihr]; omega

end Basics

/-! ## The traversal fills the buffer in reference order -/

section Traversal

variable {α : Type}

theorem split_length {β : Type} (mid : List β) (a b : Nat) (h : mid.length = a + b) :
    ∃ x y, mid = x ++ y ∧ x.length = a ∧ y.length = b := by
  refine ⟨mid.take a, mid.drop a, (List.take_append_drop a mid).symm, ?_, ?_⟩
  · simp [List.length_take]; omega
  · simp [List.length_drop]; omega

theorem array_write_at (pre rest : List (bt_Node α)) (m n : bt_Node α) (i : Nat)
    (hi : i = pre.length) :
    array_write (pre ++ m :: rest) i n = some (pre ++ n :: rest) := by
  subst hi
  have hlt : pre.length < (pre ++ m :: rest).length := by simp
  simp only [array_write, hlt, if_true]
  congr 1
  induction pre with
  | nil => rfl
  | cons p ps ih =>
    have : ps.length < (ps ++ m :: rest).length := by simp
    simp

theorem traverse_fills (s : TraversalStrategy) (t : bt_Node α) :
    ∀ (pre mid post : List (bt_Node α)) (i : Nat), mid.length = node_count t → i = pre.length →
      _traverse s t (pre ++ mid ++ post) i = some (pre ++ walk s t ++ post, i + node_count t) := by
  induction t with
  | nil =>
    intro pre mid post i hmid hi
    have : mid = [] := List.eq_nil_of_length_eq_zero (by simpa [node_count] using hmid)
    simp [_traverse, walk, node_count, this]
  | node l d r ihl ihr =>
    intro pre mid post i hmid hi
    cases s with
    | PRE_ORDER =>
      obtain ⟨m0, rest, rfl, h0, hrest⟩ :=
        split_length mid 1 (node_count l + node_count r) (by simp only [node_count] at hmid; omega)
      obtain ⟨ml, mr, rfl, hml, hmr⟩ := split_length rest _ _ hrest
      match m0, h0 with
      | [m], _ =>
        have hw := array_write_at pre (ml ++ mr ++ post) m (bt_Node.node l d r) i hi
        have h1 := ihl (pre ++ [bt_Node.node l d r]) ml (mr ++ post) (i + 1) hml (by simp [hi])
        have h2 := ihr (pre ++ [bt_Node.node l d r] ++ walk TraversalStrategy.PRE_ORDER l) mr post
          (i + 1 + node_count l) hmr (by simp [hi, length_walk]; try omega)
        simp only [List.append_assoc, List.singleton_append, List.cons_append, List.nil_append]
          at hw h1 h2 ⊢
        simp only [_traverse, hw, Option.some_bind, h1, h2, walk, node_count, List.cons_append,
          List.append_assoc]
        simp [node_count, hml, hmr]
        try omega
    | IN_ORDER =>
      obtain ⟨ml, rest, rfl, hml, hrest⟩ :=
        split_length mid (node_count l) (1 + node_count r) (by simp only [node_count] at hmid; omega)
      obtain ⟨m0, mr, rfl, h0, hmr⟩ := split_length rest _ _ hrest
      match m0, h0 with
      | [m], _ =>
        have h1 := ihl pre ml ([m] ++ mr ++ post) i hml hi
        have hw := array_write_at (pre ++ walk TraversalStrategy.IN_ORDER l) (mr ++ post) m
          (bt_Node.node l d r) (i + node_count l) (by simp [hi, length_walk]; try omega)
        have h2 := ihr (pre ++ walk TraversalStrategy.IN_ORDER l ++ [bt_Node.node l d r]) mr post
          (i + node_count l + 1) hmr (by simp [hi, length_walk]; try omega)
        simp only [List.append_assoc, List.singleton_append, List.cons_append, List.nil_append]
          at hw h1 h2 ⊢
        simp only [_traverse, hw, Option.some_bind, h1, h2, walk, node_count, List.cons_append,
          List.append_assoc]
        simp [node_count, hml, hmr]
        try omega
    | POST_ORDER =>
      obtain ⟨ml, rest, rfl, hml, hrest⟩ :=
        split_length mid (node_count l) (node_count r + 1) (by simp only [node_count] at hmid; omega)
      obtain ⟨mr, m0, rfl, hmr, h0⟩ := split_length rest _ _ hrest
      match m0, h0 with
      | [m], _ =>
        have h1 := ihl pre ml (mr ++ [m] ++ post) i hml hi
        have h2 := ihr (pre ++ walk TraversalStrategy.POST_ORDER l) mr ([m] ++ post)
          (i + node_count l) hmr (by simp [hi, length_walk]; try omega)
        have hw := array_write_at
          (pre ++ walk TraversalStrategy.POST_ORDER l ++ walk TraversalStrategy.POST_ORDER r) post m
          (bt_Node.node l d r) (i + node_count l + node_count r) (by simp [hi, length_walk]; try omega)
        simp only [List.append_assoc, List.singleton_append, List.cons_append, List.nil_append]
          at hw h1 h2 ⊢
        simp only [_traverse, hw, Option.some_bind, h1, h2, walk, node_count, List.cons_append,
          List.append_assoc]
        simp [node_count, hml, hmr]
        try omega

theorem bt_traverse_walk (tree : bt_Tree α) (s : TraversalStrategy)
    (hcount : tree.count = node_count tree.root) :
    bt_traverse tree s = some (walk s tree.root) := by
  have h := traverse_fills s tree.root [] (List.replicate tree.count bt_Node.nil) [] 0
    (by simp [hcount]) rfl
  simp only [List.nil_append, List.append_nil] at h
  simp [bt_traverse, h]

theorem traversal_payloads_in (tree : bt_Tree α) (hcount : tree.count = node_count tree.root) :
    traversal_payloads tree TraversalStrategy.IN_ORDER = some (inorder tree.root) := by
  simp [traversal_payloads, bt_traverse_walk tree _ hcount, payloads_walk_in]

end Traversal

/-! ## The balance pass keeps the left-to-right payload sequence -/

section Balance

variable {α : Type}

theorem rotate_left_inorder (t t1 : bt_Node α) (h : _rotate_left t = some t1) :
    inorder t1 = inorder t := by
  match t, h with
  | bt_Node.nil, h =>
    simp only [_rotate_left, Option.some.injEq] at h
    subst h; rfl
  | bt_Node.node l d (bt_Node.node pl pd pr), h =>
    simp only [_rotate_left, Option.some.injEq] at h
    subst h
    simp [inorder]

theorem rotate_right_inorder (t t1 : bt_Node α) (h : _rotate_right t = some t1) :
    inorder t1 = inorder t := by
  match t, h with
  | bt_Node.node (bt_Node.node pl pd pr) d r, h =>
    simp only [_rotate_right, Option.some.injEq] at h
    subst h
    simp [inorder]

/-- The loop body of `_balance` at a non-null root, with the two depth
computations written as `_depth_at` of the children. -/
theorem balance_iter_node (f : BalanceFrame α) (l r : bt_Node α) (d : α)
    (hroot : f.root = bt_Node.node l d r) :
    balance_iter f =
      if f.left_history.getD 0 0 = _depth_at l ∧ f.right_history.getD 0 0 = _depth_at r then
        LoopStep.exit (bt_Node.node l d r)
      else if _depth_at r > _depth_at l + 1 then
        match _rotate_left (bt_Node.node l d r) with
        | none => LoopStep.fault
        | some root1 =>
          if f.history_curr < HISTORY_LEN then
            LoopStep.next
              { root := root1
                left_history := f.left_history.set f.history_curr (_depth_at l)
                right_history := f.right_history.set f.history_curr (_depth_at r)
                history_curr := f.history_curr + 1 }
          else LoopStep.fault
      else if _depth_at l > _depth_at r + 1 then
        match _rotate_right (bt_Node.node l d r) with
        | none => LoopStep.fault
        | some root1 =>
          if f.history_curr < HISTORY_LEN then
            LoopStep.next
              { root := root1
                left_history := f.left_history.set f.history_curr (_depth_at l)
                right_history := f.right_history.set f.history_curr (_depth_at r)
                history_curr := f.history_curr + 1 }
          else LoopStep.fault
      else LoopStep.exit (bt_Node.node l d r) := by
  have e5 : 1 % HISTORY_LEN = 1 := by simp [HISTORY_LEN]
  unfold balance_iter
  rw [hroot]
  simp only [depth_or_zero, e5]
  by_cases h0 : f.left_history.getD 0 0 = _depth_at l ∧ f.right_history.getD 0 0 = _depth_at r
  · simp only [h0, and_self, if_true]
  · simp only [h0, if_false]
    by_cases h1 : _depth_at r > _depth_at l + 1
    · simp only [h1, if_true]
      cases _rotate_left (bt_Node.node l d r) <;> rfl
    · simp only [h1, if_false]
      by_cases h2 : _depth_at l > _depth_at r + 1
      · simp only [h2, if_true]
        cases _rotate_right (bt_Node.node l d r) <;> rfl
      · simp only [h2, if_false]

theorem balance_iter_exit (f : BalanceFrame α) (root : bt_Node α)
    (h : balance_iter f = LoopStep.exit root) : root = f.root := by
  cases hroot : f.root with
  | nil => simp [balance_iter, hroot] at h
  | node l d r =>
    rw [balance_iter_node f l r d hroot] at h
    split_ifs at h
    · cases h; rfl
    · cases hr : _rotate_left (bt_Node.node l d r) <;> simp [hr] at h
    · cases hr : _rotate_left (bt_Node.node l d r) <;> simp [hr] at h
    · cases hr : _rotate_right (bt_Node.node l d r) <;> simp [hr] at h
    · cases hr : _rotate_right (bt_Node.node l d r) <;> simp [hr] at h
    · cases h; rfl

theorem balance_iter_next (f f1 : BalanceFrame α) (h : balance_iter f = LoopStep.next f1) :
    inorder f1.root = inorder f.root ∧ f.history_curr < HISTORY_LEN ∧
      f1.history_curr = f.history_curr + 1 := by
  cases hroot : f.root with
  | nil => simp [balance_iter, hroot] at h
  | node l d r =>
    rw [balance_iter_node f l r d hroot] at h
    by_cases h0 : f.left_history.getD 0 0 = _depth_at l ∧ f.right_history.getD 0 0 = _depth_at r
    · rw [if_pos h0] at h; cases h
    · simp only [h0, if_false] at h
      by_cases hlt : f.history_curr < HISTORY_LEN
      · simp only [hlt, if_true] at h
        by_cases h1 : _depth_at r > _depth_at l + 1
        · simp only [h1, if_true] at h
          cases hr : _rotate_left (bt_Node.node l d r) with
          | none => simp [hr] at h
          | some root1 =>
            simp only [hr, LoopStep.next.injEq] at h
            subst h
            exact ⟨rotate_left_inorder _ _ hr, hlt, rfl⟩
        · simp only [h1, if_false] at h
          by_cases h2 : _depth_at l > _depth_at r + 1
          · simp only [h2, if_true] at h
            cases hr : _rotate_right (bt_Node.node l d r) with
            | none => simp [hr] at h
            | some root1 =>
              simp only [hr, LoopStep.next.injEq] at h
              subst h
              exact ⟨rotate_right_inorder _ _ hr, hlt, rfl⟩
          · simp [h2] at h
      · simp only [hlt, if_false] at h
        by_cases h1 : _depth_at r > _depth_at l + 1
        · simp only [h1, if_true] at h
          cases hr : _rotate_left (bt_Node.node l d r) <;> simp [hr] at h
        · simp only [h1, if_false] at h
          by_cases h2 : _depth_at l > _depth_at r + 1
          · simp only [h2, if_true] at h
            cases hr : _rotate_right (bt_Node.node l d r) <;> simp [hr] at h
          · simp [h2] at h

theorem balance_loop_inorder (fuel : Nat) :
    ∀ (f : BalanceFrame α) (root : bt_Node α), balance_loop fuel f = some root →
      inorder root = inorder f.root := by
  induction fuel with
  | zero => intro f root h; simp [balance_loop] at h
  | succ n ih =>
    intro f root h
    simp only [balance_loop] at h
    split at h
    · rename_i r hiter
      cases h
      rw [balance_iter_exit f _ hiter]
    · rename_i f1 hiter
      rw [ih f1 root h, (balance_iter_next f f1 hiter).1]
    · cases h

theorem balance_node_inorder (t t1 : bt_Node α) (h : balance_node t = some t1) :
    inorder t1 = inorder t :=
  balance_loop_inorder _ _ _ h

theorem balance_rec_inorder (fuel : Nat) :
    ∀ (t t1 : bt_Node α), balance_rec fuel t = some t1 → inorder t1 = inorder t := by
  induction fuel with
  | zero =>
    intro t t1 h
    cases t with
    | nil => simp only [balance_rec, Option.some.injEq] at h; subst h; rfl
    | node l d r => simp [balance_rec] at h
  | succ n ih =>
    intro t t1 h
    cases t with
    | nil => simp only [balance_rec, Option.some.injEq] at h; subst h; rfl
    | node l d r =>
      simp only [balance_rec] at h
      split at h
      · cases h
      · cases h
      · rename_i l1 d1 r1 hnode
        cases hl : balance_rec n l1 with
        | none => simp [hl] at h
        | some l2 =>
          cases hr : balance_rec n r1 with
          | none => simp [hl, hr] at h
          | some r2 =>
            simp only [hl, hr, Option.some_bind, Option.some.injEq] at h
            subst h
            have h0 := balance_node_inorder _ _ hnode
            simp only [inorder] at h0 ⊢
            rw [ih l1 l2 hl, ih r1 r2 hr, h0]

theorem balance_inorder (t t1 : bt_Node α) (h : _balance t = some t1) :
    inorder t1 = inorder t :=
  balance_rec_inorder _ _ _ h

theorem balance_node_count (t t1 : bt_Node α) (h : _balance t = some t1) :
    node_count t1 = node_count t := by
  rw [← length_inorder, ← length_inorder, balance_inorder t t1 h]

/-- A loop that has at least one pass left and enough passes to exhaust the
history slots computes the same result with any larger bound. -/
theorem balance_loop_fuel (fuel : Nat) :
    ∀ (f : BalanceFrame α) (k : Nat), 1 ≤ fuel → HISTORY_LEN + 1 ≤ f.history_curr + fuel →
      balance_loop (fuel + k) f = balance_loop fuel f := by
  induction fuel with
  | zero => intro f k h; omega
  | succ n ih =>
    intro f k _ hbig
    have e : n + 1 + k = (n + k) + 1 := by omega
    rw [e]
    simp only [balance_loop]
    cases hiter : balance_iter f with
    | exit r => rfl
    | fault => rfl
    | next f1 =>
      obtain ⟨_, hlt, hnext⟩ := balance_iter_next f f1 hiter
      simp only
      exact ih f1 k (by simp only [HISTORY_LEN] at hlt hbig; omega) (by omega)

/-- The bound `HISTORY_LEN + 1` used by `balance_node` loses nothing. -/
theorem balance_node_fuel (t : bt_Node α) (k : Nat) :
    balance_loop (HISTORY_LEN + 1 + k) (balance_init t) = balance_node t :=
  balance_loop_fuel _ _ k (by simp [HISTORY_LEN]) (by simp [balance_init])

/-- The recursion bound `node_count` used by `_balance` loses nothing: any larger
bound gives the same result. -/
theorem balance_rec_fuel (fuel : Nat) :
    ∀ (t : bt_Node α) (fuel2 : Nat), node_count t ≤ fuel → node_count t ≤ fuel2 →
      balance_rec fuel t = balance_rec fuel2 t := by
  induction fuel with
  | zero =>
    intro t fuel2 h1 _
    cases t with
    | nil => cases fuel2 <;> rfl
    | node l d r => simp [node_count] at h1
  | succ n ih =>
    intro t fuel2 h1 h2
    cases t with
    | nil => cases fuel2 <;> rfl
    | node l d r =>
      cases fuel2 with
      | zero => simp [node_count] at h2
      | succ m =>
        simp only [balance_rec]
        cases hnode : balance_node (bt_Node.node l d r) with
        | none => rfl
        | some t1 =>
          cases t1 with
          | nil => rfl
          | node l1 d1 r1 =>
            have hc : node_count (bt_Node.node l1 d1 r1) = node_count (bt_Node.node l d r) := by
              rw [← length_inorder, ← length_inorder, balance_node_inorder _ _ hnode]
            simp only [node_count] at hc h1 h2
            simp only
            rw [ih l1 m (by omega) (by omega), ih r1 m (by omega) (by omega)]

theorem balance_unfold (l r : bt_Node α) (d : α) :
    _balance (bt_Node.node l d r) =
      (balance_node (bt_Node.node l d r)).bind fun t1 =>
        match t1 with
        | bt_Node.nil => none
        | bt_Node.node l1 d1 r1 =>
          (_balance l1).bind fun l2 => (_balance r1).bind fun r2 => some (bt_Node.node l2 d1 r2) := by
  have e : node_count (bt_Node.node l d r) = (node_count l + node_count r) + 1 := by
    simp only [node_count]; omega
  simp only [_balance, e, balance_rec]
  cases hnode : balance_node (bt_Node.node l d r) with
  | none => rfl
  | some t1 =>
    cases t1 with
    | nil => rfl
    | node l1 d1 r1 =>
      have hc : node_count (bt_Node.node l1 d1 r1) = node_count (bt_Node.node l d r) := by
        rw [← length_inorder, ← length_inorder, balance_node_inorder _ _ hnode]
      simp only [node_count] at hc
      simp only [Option.some_bind]
      rw [balance_rec_fuel _ l1 (node_count l1) (by omega) (Nat.le_refl _),
        balance_rec_fuel _ r1 (node_count r1) (by omega) (Nat.le_refl _)]

end Balance

/-! ## Insertion and collapse-delete on the node graph -/

section Mutation

variable {α : Type}

theorem is_bst_node (compare : α → α → Int) (l r : bt_Node α) (d : α) :
    is_bst compare (bt_Node.node l d r) = true ↔
      (∀ x ∈ inorder l, compare x d ≤ -1) ∧ (∀ x ∈ inorder r, 1 ≤ compare x d) ∧
        is_bst compare l = true ∧ is_bst compare r = true := by
  simp [is_bst, List.all_eq_true, and_assoc]

theorem add_result (compare : α → α → Int) (t : bt_Node α) (x : α) :
    ((_add compare t x).2 = 0 ∧ (_add compare t x).1 = t) ∨
      ((_add compare t x).2 = 1 ∧ node_count (_add compare t x).1 = node_count t + 1) := by
  induction t with
  | nil => right; simp [_add, node_count]
  | node l d r ihl ihr =>
    simp only [_add]
    split_ifs
    · rcases ihl with ⟨h1, h2⟩ | ⟨h1, h2⟩
      · left; simp [h1, h2]
      · right; simp only [h1, node_count, h2, true_and]; omega
    · rcases ihr with ⟨h1, h2⟩ | ⟨h1, h2⟩
      · left; simp [h1, h2]
      · right; simp only [h1, node_count, h2, true_and]; omega
    · left; simp

theorem add_mem (compare : α → α → Int) (t : bt_Node α) (x y : α)
    (hy : y ∈ inorder (_add compare t x).1) : y = x ∨ y ∈ inorder t := by
  induction t with
  | nil => simpa [_add, inorder] using hy
  | node l d r ihl ihr =>
    simp only [_add] at hy
    split_ifs at hy
    · simp only [inorder, List.mem_append, List.mem_cons] at hy ⊢
      rcases hy with h | h | h
      · rcases ihl h with h | h
        · exact Or.inl h
        · exact Or.inr (Or.inl h)
      · exact Or.inr (Or.inr (Or.inl h))
      · exact Or.inr (Or.inr (Or.inr h))
    · simp only [inorder, List.mem_append, List.mem_cons] at hy ⊢
      rcases hy with h | h | h
      · exact Or.inr (Or.inl h)
      · exact Or.inr (Or.inr (Or.inl h))
      · rcases ihr h with h | h
        · exact Or.inl h
        · exact Or.inr (Or.inr (Or.inr h))
    · exact Or.inr hy

theorem add_bst (compare : α → α → Int) (t : bt_Node α) (x : α)
    (h : is_bst compare t = true) : is_bst compare (_add compare t x).1 = true := by
  induction t with
  | nil => simp [_add, is_bst, inorder]
  | node l d r ihl ihr =>
    obtain ⟨hl, hr, bl, br⟩ := (is_bst_node compare l r d).mp h
    simp only [_add]
    split_ifs with h1 h2
    · refine (is_bst_node compare _ r d).mpr ⟨?_, hr, ihl bl, br⟩
      intro y hy
      rcases add_mem compare l x y hy with e | e
      · rw [e]; exact h1
      · exact hl y e
    · refine (is_bst_node compare l _ d).mpr ⟨hl, ?_, bl, ihr br⟩
      intro y hy
      rcases add_mem compare r x y hy with e | e
      · rw [e]; exact h2
      · exact hr y e
    · exact h

theorem add_present (compare : α → α → Int) (hc : StrictTotalCompare compare) (t : bt_Node α)
    (x : α) (h : is_bst compare t = true) (hx : x ∈ inorder t) :
    (_add compare t x).2 = 0 := by
  induction t with
  | nil => simp [inorder] at hx
  | node l d r ihl ihr =>
    obtain ⟨hl, hr, bl, br⟩ := (is_bst_node compare l r d).mp h
    have hxx : compare x x = 0 := (hc.eq_iff x x).mpr rfl
    simp only [inorder, List.mem_append, List.mem_cons] at hx
    simp only [_add]
    split_ifs with h1 h2
    · rcases hx with e | e | e
      · exact ihl bl e
      · rw [e] at h1; rw [e] at hxx; omega
      · have := hr x e; omega
    · rcases hx with e | e | e
      · have := hl x e; omega
      · rw [e] at h2; rw [e] at hxx; omega
      · exact ihr br e
    · rfl

theorem add_absent (compare : α → α → Int) (t : bt_Node α) (x : α)
    (hx : ∀ e ∈ inorder t, compare x e ≠ 0) : (_add compare t x).2 = 1 := by
  induction t with
  | nil => rfl
  | node l d r ihl ihr =>
    simp only [inorder, List.mem_append, List.mem_cons] at hx
    simp only [_add]
    split_ifs with h1 h2
    · exact ihl fun e he => hx e (Or.inl he)
    · exact ihr fun e he => hx e (Or.inr (Or.inr he))
    · exact absurd (by omega) (hx d (Or.inr (Or.inl rfl)))

theorem clear_count (t : bt_Node α) (h : t ≠ bt_Node.nil) :
    node_count (_clear t) + 1 = node_count t := by
  induction t with
  | nil => exact absurd rfl h
  | node l d r ihl ihr =>
    cases l with
    | node ll ld lr =>
      have := ihl (by simp)
      simp only [_clear, node_count] at this ⊢
      omega
    | nil =>
      cases r with
      | nil => simp [_clear, node_count]
      | node rl rd rr =>
        have := ihr (by simp)
        simp only [_clear, node_count] at this ⊢
        omega

theorem remove_result (compare : α → α → Int) (t : bt_Node α) (x : α) :
    ((_remove compare t x).2 = 0 ∧ (_remove compare t x).1 = t) ∨
      ((_remove compare t x).2 = 1 ∧ node_count (_remove compare t x).1 + 1 = node_count t) := by
  induction t with
  | nil => left; simp [_remove]
  | node l d r ihl ihr =>
    simp only [_remove]
    split_ifs
    · right
      exact ⟨rfl, clear_count _ (by simp)⟩
    · rcases ihl with ⟨h1, h2⟩ | ⟨h1, h2⟩
      · left; simp [h1, h2]
      · right; simp only [h1, node_count, true_and]; omega
    · rcases ihr with ⟨h1, h2⟩ | ⟨h1, h2⟩
      · left; simp [h1, h2]
      · right; simp only [h1, node_count, true_and]; omega

theorem remove_absent (compare : α → α → Int) (t : bt_Node α) (x : α)
    (hx : ∀ e ∈ inorder t, compare x e ≠ 0) : _remove compare t x = (t, 0) := by
  induction t with
  | nil => rfl
  | node l d r ihl ihr =>
    simp only [inorder, List.mem_append, List.mem_cons] at hx
    have hd : compare x d ≠ 0 := hx d (Or.inr (Or.inl rfl))
    have el := ihl fun e he => hx e (Or.inl he)
    have er := ihr fun e he => hx e (Or.inr (Or.inr he))
    simp only [_remove, hd, if_false, el, er]
    split_ifs <;> rfl

end Mutation

/-! ## The public mutators -/

section Interface

variable {α : Type}

theorem bst_iff_pairwise (compare : α → α → Int) (hc : StrictTotalCompare compare)
    (t : bt_Node α) :
    is_bst compare t = true ↔ (inorder t).Pairwise (fun a b => compare a b ≤ -1) := by
  induction t with
  | nil => simp [is_bst, inorder]
  | node l d r ihl ihr =>
    rw [is_bst_node, ihl, ihr]
    simp only [inorder, List.pairwise_append, List.pairwise_cons, List.mem_cons]
    constructor
    · rintro ⟨hl, hr, pl, pr⟩
      refine ⟨pl, ⟨fun a ha => (hc.swap d a).mpr (hr a ha), pr⟩, ?_⟩
      intro a ha b hb
      rcases hb with e | hb
      · rw [e]; exact hl a ha
      · exact hc.trans a d b (hl a ha) ((hc.swap d b).mpr (hr b hb))
    · rintro ⟨pl, ⟨hd, pr⟩, hcross⟩
      exact ⟨fun a ha => hcross a ha d (Or.inl rfl), fun a ha => (hc.swap d a).mp (hd a ha), pl, pr⟩

theorem balance_bst (compare : α → α → Int) (hc : StrictTotalCompare compare)
    (t t1 : bt_Node α) (h : _balance t = some t1) (hb : is_bst compare t = true) :
    is_bst compare t1 = true := by
  rw [bst_iff_pairwise compare hc] at hb ⊢
  rw [balance_inorder t t1 h]
  exact hb

theorem bt_add_some (t t1 : bt_Tree α) (x : α) (b : Bool) (h : bt_add t x = some (t1, b)) :
    _balance (_add t.compare t.root x).1 = some t1.root ∧ t1.compare = t.compare ∧
      t1.count = (t.count + (_add t.compare t.root x).2) % SIZE_MOD ∧
      b = decide ((_add t.compare t.root x).2 = 1) := by
  simp only [bt_add, Option.map_eq_some', Prod.mk.injEq] at h
  obtain ⟨root1, hbal, ht, hb⟩ := h
  subst ht
  exact ⟨hbal, rfl, rfl, hb.symm⟩

theorem bt_remove_some (t t1 : bt_Tree α) (x : α) (b : Bool)
    (h : bt_remove t x = some (t1, b)) :
    _balance (_remove t.compare t.root x).1 = some t1.root ∧ t1.compare = t.compare ∧
      t1.count = (t.count + SIZE_MOD - (_remove t.compare t.root x).2 % SIZE_MOD) % SIZE_MOD ∧
      b = decide ((_remove t.compare t.root x).2 = 1) := by
  simp only [bt_remove, Option.map_eq_some', Prod.mk.injEq] at h
  obtain ⟨root1, hbal, ht, hb⟩ := h
  subst ht
  exact ⟨hbal, rfl, rfl, hb.symm⟩

theorem bt_run_inv (calls : List (bt_Call α)) :
    ∀ (s s1 : bt_Trace α) (n : Nat), trace_inv s n → n + calls.length < SIZE_MOD →
      bt_run calls s = some s1 → trace_inv s1 (n + calls.length) := by
  induction calls with
  | nil =>
    intro s s1 n hs _ hrun
    simp only [bt_run, Option.some.injEq] at hrun
    subst hrun
    simpa using hs
  | cons c cs ih =>
    intro s s1 n hs hlen hrun
    obtain ⟨h1, h2, h3⟩ := hs
    simp only [List.length_cons] at hlen
    have e : n + (c :: cs).length = (n + 1) + cs.length := by simp only [List.length_cons]; omega
    rw [e]
    cases c with
    | add x =>
      simp only [bt_run] at hrun
      cases hadd : bt_add s.tree x with
      | none => simp [hadd] at hrun
      | some p =>
        obtain ⟨t1, b⟩ := p
        simp only [hadd, Option.some_bind] at hrun
        obtain ⟨hbal, _, hcount, hb⟩ := bt_add_some _ _ _ _ hadd
        have hn := balance_node_count _ _ hbal
        refine ih _ s1 (n + 1) ?_ (by omega) hrun
        rcases add_result s.tree.compare s.tree.root x with ⟨a0, a1⟩ | ⟨a0, a1⟩
        · have hb' : b = false := by rw [hb, a0]; rfl
          rw [a1] at hn
          rw [a0, Nat.add_zero, Nat.mod_eq_of_lt (by omega)] at hcount
          subst hb'
          refine ⟨?_, ?_, ?_⟩ <;> first | (simp; done) | (simp; omega)
        · have hb' : b = true := by rw [hb, a0]; rfl
          rw [a1] at hn
          rw [a0, Nat.mod_eq_of_lt (by omega)] at hcount
          subst hb'
          refine ⟨?_, ?_, ?_⟩ <;> first | (simp; done) | (simp; omega)
    | remove x =>
      simp only [bt_run] at hrun
      cases hrem : bt_remove s.tree x with
      | none => simp [hrem] at hrun
      | some p =>
        obtain ⟨t1, b⟩ := p
        simp only [hrem, Option.some_bind] at hrun
        obtain ⟨hbal, _, hcount, hb⟩ := bt_remove_some _ _ _ _ hrem
        have hn := balance_node_count _ _ hbal
        refine ih _ s1 (n + 1) ?_ (by omega) hrun
        rcases remove_result s.tree.compare s.tree.root x with ⟨a0, a1⟩ | ⟨a0, a1⟩
        · have hb' : b = false := by rw [hb, a0]; rfl
          rw [a1] at hn
          have e0 : s.tree.count + SIZE_MOD - 0 % SIZE_MOD = s.tree.count + SIZE_MOD := by simp
          rw [a0, e0, Nat.add_mod_right, Nat.mod_eq_of_lt (by omega)] at hcount
          subst hb'
          refine ⟨?_, ?_, ?_⟩ <;> first | (simp; done) | (simp; omega)
        · have hb' : b = true := by rw [hb, a0]; rfl
          have e1 : 1 % SIZE_MOD = 1 := by simp [SIZE_MOD]
          have e0 : s.tree.count + SIZE_MOD - 1 = (s.tree.count - 1) + SIZE_MOD := by omega
          rw [a0, e1, e0, Nat.add_mod_right, Nat.mod_eq_of_lt (by omega)] at hcount
          subst hb'
          refine ⟨?_, ?_, ?_⟩ <;> first | (simp; done) | (simp; omega)

end Interface

/-! ## Claims about ordering, duplicates and counting -/

section Claims

variable {α : Type}

theorem cmp_int_strict_total : StrictTotalCompare _cmp_int := by
  refine ⟨?_, ?_, ?_⟩
  · intro a b
    unfold _cmp_int
    split_ifs <;> constructor <;> intro h <;> first | omega | exact absurd h (by decide)
  · intro a b
    unfold _cmp_int
    split_ifs <;> constructor <;> intro h <;> omega
  · intro a b c
    unfold _cmp_int
    split_ifs <;> intro h1 h2 <;> omega

/-- The count of a tree built by `bt_add` calls is its number of nodes, as long as
fewer than `2^64` calls were made. -/
theorem bt_add_all_count (xs : List α) :
    ∀ (t t1 : bt_Tree α) (n : Nat), t.count = node_count t.root → t.count ≤ n →
      n + xs.length < SIZE_MOD → bt_add_all t xs = some t1 →
      t1.count = node_count t1.root ∧ t1.count < SIZE_MOD := by
  induction xs with
  | nil =>
    intro t t1 n h2 h3 hlen hrun
    simp only [bt_add_all, Option.some.injEq] at hrun
    subst hrun
    simp only [List.length_nil] at hlen
    exact ⟨h2, by omega⟩
  | cons x xs ih =>
    intro t t1 n h2 h3 hlen hrun
    simp only [List.length_cons] at hlen
    simp only [bt_add_all] at hrun
    cases hadd : bt_add t x with
    | none => simp [hadd] at hrun
    | some p =>
      obtain ⟨t2, b⟩ := p
      simp only [hadd, Option.some_bind] at hrun
      obtain ⟨hbal, _, hcount, _⟩ := bt_add_some _ _ _ _ hadd
      have hn := balance_node_count _ _ hbal
      refine ih t2 t1 (n + 1) ?_ ?_ (by omega) hrun
      · rcases add_result t.compare t.root x with ⟨a0, a1⟩ | ⟨a0, a1⟩
        · rw [a1] at hn
          rw [a0, Nat.add_zero, Nat.mod_eq_of_lt (by omega)] at hcount
          omega
        · rw [a1] at hn
          rw [a0, Nat.mod_eq_of_lt (by omega)] at hcount
          omega
      · rcases add_result t.compare t.root x with ⟨a0, _⟩ | ⟨a0, _⟩
        · rw [a0, Nat.add_zero, Nat.mod_eq_of_lt (by omega)] at hcount
          omega
        · rw [a0, Nat.mod_eq_of_lt (by omega)] at hcount
          omega

/-- Under a strict-total-order comparator, `bt_add` calls keep the ordering
invariant and the comparator. -/
theorem bt_add_all_bst (compare : α → α → Int) (hc : StrictTotalCompare compare)
    (xs : List α) :
    ∀ (t t1 : bt_Tree α), t.compare = compare → is_bst compare t.root = true →
      bt_add_all t xs = some t1 → t1.compare = compare ∧ is_bst compare t1.root = true := by
  induction xs with
  | nil =>
    intro t t1 h1 h4 hrun
    simp only [bt_add_all, Option.some.injEq] at hrun
    subst hrun
    exact ⟨h1, h4⟩
  | cons x xs ih =>
    intro t t1 h1 h4 hrun
    simp only [bt_add_all] at hrun
    cases hadd : bt_add t x with
    | none => simp [hadd] at hrun
    | some p =>
      obtain ⟨t2, b⟩ := p
      simp only [hadd, Option.some_bind] at hrun
      obtain ⟨hbal, hcmp, _, _⟩ := bt_add_some _ _ _ _ hadd
      have hbst := balance_bst compare hc _ _ hbal (by rw [h1]; exact add_bst compare _ x h4)
      exact ih t2 t1 (hcmp.trans h1) hbst hrun

theorem bt_add_all_reach (compare : α → α → Int) (hc : StrictTotalCompare compare)
    (xs : List α) (t : bt_Tree α) (hlen : xs.length < SIZE_MOD)
    (hreach : bt_add_all (bt_create compare) xs = some t) :
    t.compare = compare ∧ t.count = node_count t.root ∧ t.count < SIZE_MOD ∧
      is_bst compare t.root = true := by
  obtain ⟨h1, h2⟩ := bt_add_all_count xs (bt_create compare) t 0 rfl (Nat.le_refl _)
    (by simpa using hlen) hreach
  obtain ⟨h3, h4⟩ := bt_add_all_bst compare hc xs (bt_create compare) t rfl rfl hreach
  exact ⟨h3, h1, h2, h4⟩

/-- C9: after any sequence of fewer than `2^64` calls of `bt_add` and `bt_remove`
on a freshly created tree, each of which returned, `count` is the number of nodes
reachable from `root` and is the number of adds that returned true less the
number of removes that returned true (no wrap-around: the difference taken in
the integers is `count`), and the amount a following `bt_remove` subtracts never
exceeds `count`. -/
theorem count_tracks_nodes (compare : α → α → Int) (calls : List (bt_Call α))
    (s : bt_Trace α) (hlen : calls.length < SIZE_MOD)
    (hrun : bt_run calls (bt_start compare) = some s) :
    s.tree.count = node_count s.tree.root ∧
      (s.tree.count : Int) = (s.adds : Int) - (s.removes : Int) ∧
      ∀ v, (_remove s.tree.compare s.tree.root v).2 ≤ s.tree.count := by
  have h0 : trace_inv (bt_start compare) 0 := ⟨rfl, rfl, Nat.le_refl _⟩
  obtain ⟨h1, h2, _⟩ := bt_run_inv calls _ s 0 h0 (by simpa using hlen) hrun
  refine ⟨h1, by omega, ?_⟩
  intro v
  rcases remove_result s.tree.compare s.tree.root v with ⟨a0, _⟩ | ⟨a0, a1⟩
  · omega
  · omega

/-- Witness for C9: the calls add 4, add 3, add 5, remove 3 on an integer tree. -/
theorem count_tracks_nodes_witness :
    [bt_Call.add (4 : Int), bt_Call.add 3, bt_Call.add 5, bt_Call.remove 3].length < SIZE_MOD ∧
      bt_run [bt_Call.add (4 : Int), bt_Call.add 3, bt_Call.add 5, bt_Call.remove 3]
          (bt_start _cmp_int) =
        some { tree := int_tree (bt_Node.node bt_Node.nil 4 (int_leaf 5)) 2, adds := 3,
               removes := 1 } ∧
      (2 : Nat) = node_count (bt_Node.node bt_Node.nil 4 (int_leaf 5)) ∧
      ((2 : Nat) : Int) = ((3 : Nat) : Int) - ((1 : Nat) : Int) ∧
      ∀ v, (_remove _cmp_int (bt_Node.node bt_Node.nil 4 (int_leaf 5)) v).2 ≤ 2 :=
  ⟨by decide, rfl,
    count_tracks_nodes _cmp_int
      [bt_Call.add (4 : Int), bt_Call.add 3, bt_Call.add 5, bt_Call.remove 3]
      { tree := int_tree (bt_Node.node bt_Node.nil 4 (int_leaf 5)) 2, adds := 3, removes := 1 }
      (by decide) rfl⟩

/-- C6 at a failing input: the tree built by `bt_add` of 4, 1, 2, 3 holds 3 and is
left unbalanced at its root by the balance pass of the fourth call.  The rejected
`bt_add` of 3 returns false and keeps `count` 4, but its balance pass rotates the
root, so the `PRE_ORDER` output changes from 4, 2, 1, 3 to 2, 1, 4, 3 and the
`POST_ORDER` output from 1, 3, 2, 4 to 1, 3, 4, 2. -/
theorem rejected_add_rotates :
    (bt_add_all bt_create_int [4, 1, 2, 3]).map (fun t => (t.root, t.count)) =
        some (four_ints, 4) ∧
      bt_is_balanced (int_tree four_ints 4) = false ∧
      child_depths four_ints = (2, 0) ∧
      _add _cmp_int four_ints 3 = (four_ints, 0) ∧
      traversal_payloads (int_tree four_ints 4) TraversalStrategy.PRE_ORDER =
        some [4, 2, 1, 3] ∧
      traversal_payloads (int_tree four_ints 4) TraversalStrategy.POST_ORDER =
        some [1, 3, 2, 4] ∧
      (bt_add (int_tree four_ints 4) 3).map
          (fun p => (p.2, p.1.count, p.1.root,
            traversal_payloads p.1 TraversalStrategy.PRE_ORDER,
            traversal_payloads p.1 TraversalStrategy.POST_ORDER)) =
        some (false, 4, four_ints_rotated, some [2, 1, 4, 3], some [1, 3, 4, 2]) :=
  ⟨by decide, by decide, by decide, by decide, by decide, by decide, rfl⟩

/-- On a tree built from the empty tree by fewer than `2^64`
calls of `bt_add` under a strict-total-order comparator, `_add` of a payload that
compares equal to an entry returns 0 and leaves the node graph as it was; when the
balance pass that follows completes, `bt_add` returns false, `count` is the same
and the `IN_ORDER` payload sequence is the one from before the call. -/
theorem rejected_add_keeps_inorder (compare : α → α → Int) (hc : StrictTotalCompare compare)
    (xs : List α) (t t1 : bt_Tree α) (x : α) (b : Bool)
    (hlen : xs.length < SIZE_MOD)
    (hreach : bt_add_all (bt_create compare) xs = some t)
    (hx : ∃ e ∈ inorder t.root, t.compare x e = 0)
    (hadd : bt_add t x = some (t1, b)) :
    _add t.compare t.root x = (t.root, 0) ∧ b = false ∧ t1.count = t.count ∧
      traversal_payloads t TraversalStrategy.IN_ORDER = some (inorder t.root) ∧
      traversal_payloads t1 TraversalStrategy.IN_ORDER = some (inorder t.root) := by
  obtain ⟨hcmp, hcount, hlt, hbst⟩ := bt_add_all_reach compare hc xs t hlen hreach
  obtain ⟨e, he, hxe⟩ := hx
  rw [hcmp] at hxe
  have hmem : x ∈ inorder t.root := by
    rw [(hc.eq_iff x e).mp hxe]; exact he
  have h0 : (_add t.compare t.root x).2 = 0 := by
    rw [hcmp]; exact add_present compare hc t.root x hbst hmem
  have h1 : (_add t.compare t.root x).1 = t.root := by
    rcases add_result t.compare t.root x with ⟨_, a1⟩ | ⟨a0, _⟩
    · exact a1
    · omega
  obtain ⟨hbal, _, hc1, hb⟩ := bt_add_some _ _ _ _ hadd
  rw [h0, Nat.add_zero, Nat.mod_eq_of_lt hlt] at hc1
  rw [h1] at hbal
  have hin := balance_inorder _ _ hbal
  have hn := balance_node_count _ _ hbal
  refine ⟨Prod.ext h1 h0, by rw [hb, h0]; rfl, hc1, traversal_payloads_in t hcount, ?_⟩
  rw [traversal_payloads_in t1 (by omega), hin]

/-- The rejected `bt_add` of 3 on the tree built from 4, 1, 2, 3 keeps the
left-to-right payload sequence. -/
theorem rejected_add_keeps_inorder_witness :
    bt_add_all (bt_create _cmp_int) [4, 1, 2, 3] = some (int_tree four_ints 4) ∧
      bt_add (int_tree four_ints 4) 3 = some (int_tree four_ints_rotated 4, false) ∧
      _add _cmp_int four_ints 3 = (four_ints, 0) ∧
      traversal_payloads (int_tree four_ints 4) TraversalStrategy.IN_ORDER =
        some [1, 2, 3, 4] ∧
      traversal_payloads (int_tree four_ints_rotated 4) TraversalStrategy.IN_ORDER =
        some [1, 2, 3, 4] :=
  have h := rejected_add_keeps_inorder _cmp_int cmp_int_strict_total [4, 1, 2, 3]
    (int_tree four_ints 4) (int_tree four_ints_rotated 4) 3 false (by decide) rfl
    ⟨3, by decide, by decide⟩ rfl
  ⟨rfl, rfl, h.1, h.2.2.2.1, h.2.2.2.2⟩

/-- C7 at a failing input: the tree built by `bt_add` of 4, 1, 2, 3 holds no 9 and
is left unbalanced at its root by the balance pass of the fourth call.  The
`bt_remove` of the absent payload 9 returns false and keeps `count` 4, but its
balance pass rotates the root: the node graph afterwards has 2 at the root where
it had 4. -/
theorem failed_remove_rotates :
    (bt_add_all bt_create_int [4, 1, 2, 3]).map (fun t => (t.root, t.count)) =
        some (four_ints, 4) ∧
      bt_is_balanced (int_tree four_ints 4) = false ∧
      child_depths four_ints = (2, 0) ∧
      _remove _cmp_int four_ints 9 = (four_ints, 0) ∧
      (inorder four_ints).all (fun e => decide (_cmp_int 9 e ≠ 0)) = true ∧
      (bt_remove (int_tree four_ints 4) 9).map (fun p => (p.2, p.1.count, p.1.root)) =
        some (false, 4, four_ints_rotated) ∧
      four_ints_rotated ≠ four_ints := by
  decide

/-- On a tree built from the empty tree by fewer than `2^64`
calls of `bt_add`, `_remove` of a payload
that compares equal to no entry returns 0 and leaves the node graph as it was;
when the balance pass that follows completes, `bt_remove` returns false, `count`
and the number of nodes are the same and the `IN_ORDER` payload sequence is the
one from before the call. -/
theorem failed_remove_keeps_inorder (compare : α → α → Int)
    (xs : List α) (t t1 : bt_Tree α) (v : α) (b : Bool)
    (hlen : xs.length < SIZE_MOD)
    (hreach : bt_add_all (bt_create compare) xs = some t)
    (hv : ∀ e ∈ inorder t.root, t.compare v e ≠ 0)
    (hrem : bt_remove t v = some (t1, b)) :
    _remove t.compare t.root v = (t.root, 0) ∧ b = false ∧ t1.count = t.count ∧
      node_count t1.root = node_count t.root ∧
      traversal_payloads t TraversalStrategy.IN_ORDER = some (inorder t.root) ∧
      traversal_payloads t1 TraversalStrategy.IN_ORDER = some (inorder t.root) := by
  obtain ⟨hcount, hlt⟩ := bt_add_all_count xs (bt_create compare) t 0 rfl (Nat.le_refl _)
    (by simpa using hlen) hreach
  have h0 := remove_absent t.compare t.root v hv
  obtain ⟨hbal, _, hc1, hb⟩ := bt_remove_some _ _ _ _ hrem
  have e0 : t.count + SIZE_MOD - 0 % SIZE_MOD = t.count + SIZE_MOD := by simp
  rw [h0] at hbal hc1 hb
  simp only at hbal hc1 hb
  rw [e0, Nat.add_mod_right, Nat.mod_eq_of_lt hlt] at hc1
  have hin := balance_inorder _ _ hbal
  have hn := balance_node_count _ _ hbal
  refine ⟨h0, by rw [hb]; rfl, hc1, hn, traversal_payloads_in t hcount, ?_⟩
  rw [traversal_payloads_in t1 (by omega), hin]

/-- The failed `bt_remove` of 9 on the tree built from 4, 1, 2, 3 keeps the
left-to-right payload sequence. -/
theorem failed_remove_keeps_inorder_witness :
    bt_add_all (bt_create _cmp_int) [4, 1, 2, 3] = some (int_tree four_ints 4) ∧
      bt_remove (int_tree four_ints 4) 9 = some (int_tree four_ints_rotated 4, false) ∧
      _remove _cmp_int four_ints 9 = (four_ints, 0) ∧
      node_count four_ints_rotated = node_count four_ints ∧
      traversal_payloads (int_tree four_ints_rotated 4) TraversalStrategy.IN_ORDER =
        some [1, 2, 3, 4] :=
  have h := failed_remove_keeps_inorder _cmp_int [4, 1, 2, 3]
    (int_tree four_ints 4) (int_tree four_ints_rotated 4) 9 false (by decide) rfl
    (by decide) rfl
  ⟨rfl, rfl, h.1, h.2.2.2.1, h.2.2.2.2.2⟩

/-! ## Inputs on which the code departs from the contract -/

/-- The loop of `_balance` at the subtree 10 over 9 over 6 (8 right of 6, 7 left
of 8) rotates right, right, left, right, left and asks for a sixth rotation while
`history_curr` is 5: the write `left_history[5]` is outside the arrays. -/
theorem left_zigzag_faults :
    balance_node left_zigzag = none ∧ (_balance left_zigzag).isNone = true := by
  decide

/-- The passes of that loop: write index, depths of the two children, and the pair
in slot 0 of the history that the guard compares with.  After the first pass slot
0 holds (4, 0), while the depths alternate between (3, 1) and (0, 3), so the guard
never fires; the sixth pass starts with write index 5. -/
theorem left_zigzag_frames :
    (balance_frames 7 (balance_init left_zigzag)).map
        (fun f => (f.history_curr, child_depths f.root,
          (f.left_history.getD 0 0, f.right_history.getD 0 0))) =
      [(0, (4, 0), (0, 0)), (1, (3, 1), (4, 0)), (2, (0, 3), (4, 0)), (3, (3, 1), (4, 0)),
        (4, (0, 3), (4, 0)), (5, (3, 1), (4, 0))] := by
  decide

/-- C1 at a failing input: the ten distinct integers 10, 5, 9, 6, 4, 8, 1, 7, 3, 2.
The first nine `bt_add` calls return and give `nine_ints`; the tenth does not
return a tree, because its balance pass leaves the history arrays. -/
theorem add_all_ten_ints_faults :
    [10, 5, 9, 6, 4, 8, 1, 7, 3, (2 : Int)].Nodup ∧
      (bt_add_all bt_create_int [10, 5, 9, 6, 4, 8, 1, 7, 3]).map (fun t => (t.root, t.count)) =
        some (nine_ints, 9) ∧
      (bt_add_all bt_create_int [10, 5, 9, 6, 4, 8, 1, 7, 3, 2]).isNone = true := by
  decide

/-- C2 at a failing input: after `bt_add` of 5, 3, 7, 4 and `bt_remove` of 5 the
root holds 3 and its left child holds 4, the ordering invariant is broken and the
`IN_ORDER` output is 4, 3, 7. -/
theorem remove_breaks_ordering :
    (bt_run [bt_Call.add 5, bt_Call.add 3, bt_Call.add 7, bt_Call.add 4, bt_Call.remove 5]
        (bt_start _cmp_int)).map
        (fun s => (s.tree.root, is_bst _cmp_int s.tree.root,
          traversal_payloads s.tree TraversalStrategy.IN_ORDER)) =
      some (bt_Node.node (int_leaf 4) 3 (int_leaf 7), false, some [4, 3, 7]) := by
  decide

/-- C3 at a failing input: after `bt_add` of 1, 3, 2 and `bt_remove` of 1 the tree
is 3 with right child 2; `bt_remove` of 2 then returns false and every traversal
still lists 2. -/
theorem remove_misses_entry :
    (bt_run [bt_Call.add 1, bt_Call.add 3, bt_Call.add 2, bt_Call.remove 1]
        (bt_start _cmp_int)).map (fun s => (s.tree.root, s.tree.count)) =
        some (bt_Node.node bt_Node.nil 3 (int_leaf 2), 2) ∧
      (bt_remove (int_tree (bt_Node.node bt_Node.nil 3 (int_leaf 2)) 2) 2).map
          (fun p => (p.2, p.1.count, p.1.root)) =
        some (false, 2, bt_Node.node bt_Node.nil 3 (int_leaf 2)) ∧
      traversal_payloads (int_tree (bt_Node.node bt_Node.nil 3 (int_leaf 2)) 2)
          TraversalStrategy.PRE_ORDER = some [3, 2] ∧
      traversal_payloads (int_tree (bt_Node.node bt_Node.nil 3 (int_leaf 2)) 2)
          TraversalStrategy.IN_ORDER = some [3, 2] ∧
      traversal_payloads (int_tree (bt_Node.node bt_Node.nil 3 (int_leaf 2)) 2)
          TraversalStrategy.POST_ORDER = some [2, 3] ∧
      _cmp_int 2 2 = 0 := by
  decide

/-- C4 at a failing input: after `bt_add` of 1, 3, 2 and `bt_remove` of 1 the tree
holds 3 and 2; `bt_add` of 2 then returns true, `count` becomes 3 and the tree
holds 2 twice. -/
theorem add_stores_duplicate :
    (bt_run [bt_Call.add 1, bt_Call.add 3, bt_Call.add 2, bt_Call.remove 1]
        (bt_start _cmp_int)).map (fun s => (s.tree.root, s.tree.count)) =
        some (bt_Node.node bt_Node.nil 3 (int_leaf 2), 2) ∧
      (bt_add (int_tree (bt_Node.node bt_Node.nil 3 (int_leaf 2)) 2) 2).map
          (fun p => (p.2, p.1.count, p.1.root,
            traversal_payloads p.1 TraversalStrategy.IN_ORDER)) =
        some (true, 3, bt_Node.node (int_leaf 2) 3 (int_leaf 2), some [2, 3, 2]) := by
  decide

/-- C5 at a failing input: `nine_ints` satisfies the ordering invariant and holds
no entry equal to 2; `_add` of 2 creates the node and returns 1, but `bt_add` does
not return, because its balance pass leaves the history arrays. -/
theorem add_on_ordered_tree_faults :
    is_bst _cmp_int nine_ints = true ∧
      (inorder nine_ints).all (fun e => decide (_cmp_int 2 e ≠ 0)) = true ∧
      (_add _cmp_int nine_ints 2).2 = 1 ∧
      inorder (_add _cmp_int nine_ints 2).1 = [1, 2, 3, 4, 5, 6, 7, 8, 9, 10] ∧
      (bt_add (int_tree nine_ints 9) 2).isNone = true := by
  decide

/-- C8 at a failing input: `eleven_ints`, built by eleven `bt_add` calls, satisfies
the ordering invariant with distinct payloads and holds 11; `_remove` of 11 frees
one node and returns 1, but `bt_remove` does not return, because its balance pass
leaves the history arrays. -/
theorem remove_on_ordered_tree_faults :
    (bt_add_all bt_create_int [11, 10, 1, 9, 5, 4, 3, 2, 6, 8, 7]).map
        (fun t => (t.root, t.count)) = some (eleven_ints, 11) ∧
      is_bst _cmp_int eleven_ints = true ∧
      (inorder eleven_ints).Nodup ∧
      (_remove _cmp_int eleven_ints 11).2 = 1 ∧
      inorder (_remove _cmp_int eleven_ints 11).1 = [1, 2, 3, 4, 5, 6, 7, 8, 9, 10] ∧
      (bt_remove (int_tree eleven_ints 11) 11).isNone = true := by
  decide

/-- C10 at a failing input: after `bt_add` of 10, 30, 20 the root 10 has an empty
left subtree and a right subtree of height 2, so `bt_is_balanced` is false; an
explicit `bt_balance` returns the same node graph. -/
theorem balance_keeps_inner_grandchild :
    (bt_add_all bt_create_int [10, 30, 20]).map (fun t => (t.root, t.count, bt_is_balanced t)) =
        some (bt_Node.node bt_Node.nil 10 (bt_Node.node (int_leaf 20) 30 bt_Node.nil), 3, false) ∧
      (bt_balance
          (int_tree (bt_Node.node bt_Node.nil 10 (bt_Node.node (int_leaf 20) 30 bt_Node.nil)) 3)).map
          (fun t => (t.root, bt_is_balanced t)) =
        some (bt_Node.node bt_Node.nil 10 (bt_Node.node (int_leaf 20) 30 bt_Node.nil), false) := by
  decide

/-- The balance pass of a rejected `bt_add` or of a failed `bt_remove` need not
complete: on the tree built by `bt_add` of 10, 1, 9, 5, 4, 3, 2, 6, 8, 7 it leaves
the history arrays. -/
theorem rejected_calls_can_fault :
    ((bt_add_all bt_create_int [10, 1, 9, 5, 4, 3, 2, 6, 8, 7]).bind
        (fun t => bt_add t 7)).isNone = true ∧
      ((bt_add_all bt_create_int [10, 1, 9, 5, 4, 3, 2, 6, 8, 7]).bind
        (fun t => bt_remove t 12)).isNone = true ∧
      (bt_add_all bt_create_int [10, 1, 9, 5, 4, 3, 2, 6, 8, 7]).isSome = true := by
  decide

/-! ## What the insertions compute whenever every call returns -/

theorem add_perm (compare : α → α → Int) (t : bt_Node α) (x : α)
    (h : (_add compare t x).2 = 1) :
    (inorder (_add compare t x).1).Perm (x :: inorder t) := by
  induction t with
  | nil => simp [_add, inorder]
  | node l d r ihl ihr =>
    simp only [_add] at h ⊢
    split_ifs at h ⊢ with h1 h2
    · simp only [inorder]
      exact (ihl h).append_right _
    · simp only [inorder]
      have e : inorder l ++ d :: x :: inorder r = (inorder l ++ [d]) ++ x :: inorder r := by simp
      have p1 : (inorder l ++ d :: inorder (_add compare r x).1).Perm
          (inorder l ++ d :: x :: inorder r) := ((ihr h).cons d).append_left (inorder l)
      have p2 : ((inorder l ++ [d]) ++ x :: inorder r).Perm (x :: (inorder l ++ d :: inorder r)) := by
        have := @List.perm_middle α x (inorder l ++ [d]) (inorder r)
        simpa using this
      exact p1.trans (e ▸ p2)

/-- Whenever every `bt_add` of a list of pairwise distinct payloads returns, the
tree holds exactly the payloads of the list and its left-to-right payload
sequence is strictly ascending. -/
theorem bt_add_all_sorted (compare : α → α → Int) (hc : StrictTotalCompare compare)
    (xs : List α) :
    ∀ (t t1 : bt_Tree α), t.compare = compare → is_bst compare t.root = true → xs.Nodup →
      (∀ x ∈ xs, x ∉ inorder t.root) → bt_add_all t xs = some t1 →
      (inorder t1.root).Perm (xs ++ inorder t.root) ∧
        (inorder t1.root).Pairwise (fun a b => compare a b ≤ -1) := by
  induction xs with
  | nil =>
    intro t t1 _ hb _ _ hrun
    simp only [bt_add_all, Option.some.injEq] at hrun
    subst hrun
    exact ⟨by simp, (bst_iff_pairwise compare hc _).mp hb⟩
  | cons x xs ih =>
    intro t t1 h1 hb hnd hfresh hrun
    simp only [bt_add_all] at hrun
    cases hadd : bt_add t x with
    | none => simp [hadd] at hrun
    | some p =>
      obtain ⟨t2, b⟩ := p
      simp only [hadd, Option.some_bind] at hrun
      obtain ⟨hbal, hcmp, _, _⟩ := bt_add_some _ _ _ _ hadd
      rw [h1] at hbal
      have hbst := balance_bst compare hc _ _ hbal (add_bst compare _ x hb)
      have habs : (_add compare t.root x).2 = 1 := by
        apply add_absent
        intro e he h0
        exact hfresh x (List.mem_cons_self _ _) ((hc.eq_iff x e).mp h0 ▸ he)
      have hperm : (inorder t2.root).Perm (x :: inorder t.root) := by
        rw [balance_inorder _ _ hbal]
        exact add_perm compare t.root x habs
      obtain ⟨hnx, hnd'⟩ := List.nodup_cons.mp hnd
      have hfresh' : ∀ y ∈ xs, y ∉ inorder t2.root := by
        intro y hy hmem
        rcases List.mem_cons.mp (hperm.subset hmem) with e | e
        · exact hnx (e ▸ hy)
        · exact hfresh y (List.mem_cons_of_mem _ hy) e
      obtain ⟨hp, hs⟩ := ih t2 t1 (hcmp.trans h1) hbst hnd' hfresh' hrun
      refine ⟨hp.trans ?_, hs⟩
      exact ((List.Perm.append_left xs hperm).trans List.perm_middle)

/-! ## Fifteen ascending insertions -/

/-- C12: starting from the empty integer tree, `bt_add` of 1, 2, ..., 15 in
ascending order returns at every step (every prefix 1..k of the sequence yields a
tree), and the final tree has `count` 15, height 5 (so at most 5) and
`bt_is_balanced` true. -/
theorem fifteen_ascending_balanced :
    (List.range 16).all
        (fun k => (bt_add_all bt_create_int ((List.range k).map (fun i => (i : Int) + 1))).isSome) =
        true ∧
      (List.range 15).map (fun i => (i : Int) + 1) =
        [1, 2, 3, 4, 5, 6, 7, 8, 9, 10, 11, 12, 13, 14, 15] ∧
      (bt_add_all bt_create_int [1, 2, 3, 4, 5, 6, 7, 8, 9, 10, 11, 12, 13, 14, 15]).map
          (fun t => (t.count, _depth_at t.root, decide (_depth_at t.root ≤ 5),
            bt_is_balanced t)) =
        some (15, 5, true, true) := by
  decide

/-! ## Traversal and teardown -/

theorem walk_not_null (s : TraversalStrategy) (t : bt_Node α) :
    ∀ n ∈ walk s t, n.isNull = false := by
  induction t with
  | nil => intro n hn; simp [walk] at hn
  | node l d r ihl ihr =>
    intro n hn
    cases s <;>
      simp only [walk, List.mem_cons, List.mem_append, List.mem_singleton, List.not_mem_nil,
        or_false] at hn
    · rcases hn with e | e | e
      · rw [e]; rfl
      · exact ihl n e
      · exact ihr n e
    · rcases hn with e | e | e
      · exact ihl n e
      · rw [e]; rfl
      · exact ihr n e
    · rcases hn with e | e | e
      · exact ihl n e
      · exact ihr n e
      · rw [e]; rfl

/-- C13: for every tree whose buffer of `count` slots has room for its nodes,
`bt_traverse` fills the buffer with one entry per node, written at the indices
0, 1, ..., n - 1 in turn (the walk returns the index n, the slots from n on are
not written), in the reference order of the strategy: `PRE_ORDER` is node, left,
right; `IN_ORDER` is left, node, right; `POST_ORDER` is left, right, node. -/
theorem traverse_reference_order (tree : bt_Tree α) (s : TraversalStrategy)
    (hcount : node_count tree.root ≤ tree.count) :
    bt_traverse tree s =
        some (walk s tree.root ++
          List.replicate (tree.count - node_count tree.root) bt_Node.nil) ∧
      (_traverse s tree.root (List.replicate tree.count bt_Node.nil) 0).map Prod.snd =
        some (node_count tree.root) ∧
      (walk s tree.root).length = node_count tree.root ∧
      (∀ n ∈ walk s tree.root, n.isNull = false) ∧
      (∀ (l r : bt_Node α) (d : α),
        walk TraversalStrategy.PRE_ORDER (bt_Node.node l d r) =
            [bt_Node.node l d r] ++ walk TraversalStrategy.PRE_ORDER l ++
              walk TraversalStrategy.PRE_ORDER r ∧
          walk TraversalStrategy.IN_ORDER (bt_Node.node l d r) =
            walk TraversalStrategy.IN_ORDER l ++ [bt_Node.node l d r] ++
              walk TraversalStrategy.IN_ORDER r ∧
          walk TraversalStrategy.POST_ORDER (bt_Node.node l d r) =
            walk TraversalStrategy.POST_ORDER l ++ walk TraversalStrategy.POST_ORDER r ++
              [bt_Node.node l d r]) := by
  have hsplit : List.replicate tree.count (bt_Node.nil : bt_Node α) =
      List.replicate (node_count tree.root) bt_Node.nil ++
        List.replicate (tree.count - node_count tree.root) bt_Node.nil := by
    rw [← List.replicate_add]
    congr 1
    omega
  have h := traverse_fills s tree.root [] (List.replicate (node_count tree.root) bt_Node.nil)
    (List.replicate (tree.count - node_count tree.root) bt_Node.nil) 0 (by simp) rfl
  simp only [List.nil_append, Nat.zero_add] at h
  rw [← hsplit] at h
  refine ⟨?_, ?_, length_walk s tree.root, walk_not_null s tree.root, ?_⟩
  · simp [bt_traverse, h]
  · simp [h]
  · intro l r d
    simp [walk]

/-- Witness for C13: the tree built from 4, 3, 5, walked with each strategy. -/
theorem traverse_reference_order_witness :
    bt_add_all bt_create_int [4, 3, 5] = some (int_tree three_ints 3) ∧
      node_count (int_tree three_ints 3).root ≤ (int_tree three_ints 3).count ∧
      traversal_payloads (int_tree three_ints 3) TraversalStrategy.PRE_ORDER = some [4, 3, 5] ∧
      traversal_payloads (int_tree three_ints 3) TraversalStrategy.IN_ORDER = some [3, 4, 5] ∧
      traversal_payloads (int_tree three_ints 3) TraversalStrategy.POST_ORDER = some [3, 5, 4] ∧
      bt_traverse (int_tree three_ints 3) TraversalStrategy.POST_ORDER =
        some [int_leaf 3, int_leaf 5, three_ints] :=
  ⟨rfl, by decide, by decide, by decide, by decide,
    (traverse_reference_order (int_tree three_ints 3) TraversalStrategy.POST_ORDER
      (by decide)).1⟩

theorem delete_loop_walk {β : Type} (xs : List (bt_Node (Option β))) :
    ∀ (pre : List (bt_Node (Option β))), (∀ n ∈ xs, n.isNull = false) →
      delete_loop (pre ++ xs) xs.length pre.length =
        some ((payloads xs).filterMap id, xs) := by
  induction xs with
  | nil => intro pre _; rfl
  | cons x xs ih =>
    intro pre hx
    have hx0 : x.isNull = false := hx x (List.mem_cons_self _ _)
    have hrest := ih (pre ++ [x]) (fun n hn => hx n (List.mem_cons_of_mem _ hn))
    simp only [List.append_assoc, List.singleton_append, List.length_append,
      List.length_singleton] at hrest
    simp only [List.length_cons, delete_loop, List.getElem?_append_right (Nat.le_refl _),
      Nat.sub_self, List.getElem?_cons_zero, hx0, hrest, Option.map_some', Bool.false_eq_true,
      if_false]
    cases x with
    | nil => simp [bt_Node.isNull] at hx0
    | node l d r =>
      cases d with
      | none => simp [payloads, bt_Node.data?]
      | some p => simp [payloads, bt_Node.data?]

/-- C19: for a tree whose `count` is its number of nodes, `bt_delete` frees the
nodes in `POST_ORDER` (each node once, both children before their parent), and
the destructor calls it makes are the `POST_ORDER` payload sequence with the
null payloads left out: one call for each node whose payload is not null and no
other call. -/
theorem delete_calls_post_order {β : Type} (tree : bt_Tree (Option β))
    (hcount : tree.count = node_count tree.root) :
    bt_delete tree =
        some ((payloads (walk TraversalStrategy.POST_ORDER tree.root)).filterMap id,
          walk TraversalStrategy.POST_ORDER tree.root) ∧
      (walk TraversalStrategy.POST_ORDER tree.root).length = node_count tree.root ∧
      (∀ (l r : bt_Node (Option β)) (d : Option β),
        walk TraversalStrategy.POST_ORDER (bt_Node.node l d r) =
          walk TraversalStrategy.POST_ORDER l ++ walk TraversalStrategy.POST_ORDER r ++
            [bt_Node.node l d r]) := by
  refine ⟨?_, length_walk _ _, fun l r d => by simp [walk]⟩
  have h := delete_loop_walk (walk TraversalStrategy.POST_ORDER tree.root) []
    (walk_not_null _ _)
  simp only [List.nil_append, List.length_nil, length_walk] at h
  simp only [bt_delete, _delete, bt_traverse_walk tree _ hcount, Option.some_bind, hcount, h]

/-- Witness for C19: a tree holding 3, a null payload at the root, and 5. -/
theorem delete_calls_post_order_witness :
    bt_delete
        { root := bt_Node.node (bt_Node.node bt_Node.nil (some (3 : Int)) bt_Node.nil) none
            (bt_Node.node bt_Node.nil (some 5) bt_Node.nil),
          count := 3, compare := fun _ _ => 0 } =
      some ([3, 5],
        [bt_Node.node bt_Node.nil (some 3) bt_Node.nil,
          bt_Node.node bt_Node.nil (some 5) bt_Node.nil,
          bt_Node.node (bt_Node.node bt_Node.nil (some 3) bt_Node.nil) none
            (bt_Node.node bt_Node.nil (some 5) bt_Node.nil)]) :=
  (delete_calls_post_order
    { root := bt_Node.node (bt_Node.node bt_Node.nil (some (3 : Int)) bt_Node.nil) none
        (bt_Node.node bt_Node.nil (some 5) bt_Node.nil),
      count := 3, compare := fun _ _ => 0 } rfl).1

/-! ## Rotations and the balance check -/

/-- C16: `_rotate_left` on a node with a right child makes that child the new
subtree root, the old root its left child, and the promoted node's former left
subtree the old root's right subtree; `_rotate_right` on a node with a left child
is the mirror.  Both keep the left-to-right payload sequence and the number of
nodes, and under a strict-total-order comparator the ordering invariant holds
after the rotation exactly when it held before. -/
theorem rotations_keep_inorder (compare : α → α → Int) (hc : StrictTotalCompare compare)
    (a pl pr : bt_Node α) (d pd : α) :
    _rotate_left (bt_Node.node a d (bt_Node.node pl pd pr)) =
        some (bt_Node.node (bt_Node.node a d pl) pd pr) ∧
      _rotate_right (bt_Node.node (bt_Node.node pl pd pr) d a) =
        some (bt_Node.node pl pd (bt_Node.node pr d a)) ∧
      inorder (bt_Node.node (bt_Node.node a d pl) pd pr) =
        inorder (bt_Node.node a d (bt_Node.node pl pd pr)) ∧
      inorder (bt_Node.node pl pd (bt_Node.node pr d a)) =
        inorder (bt_Node.node (bt_Node.node pl pd pr) d a) ∧
      node_count (bt_Node.node (bt_Node.node a d pl) pd pr) =
        node_count (bt_Node.node a d (bt_Node.node pl pd pr)) ∧
      node_count (bt_Node.node pl pd (bt_Node.node pr d a)) =
        node_count (bt_Node.node (bt_Node.node pl pd pr) d a) ∧
      is_bst compare (bt_Node.node (bt_Node.node a d pl) pd pr) =
        is_bst compare (bt_Node.node a d (bt_Node.node pl pd pr)) ∧
      is_bst compare (bt_Node.node pl pd (bt_Node.node pr d a)) =
        is_bst compare (bt_Node.node (bt_Node.node pl pd pr) d a) := by
  have e1 : inorder (bt_Node.node (bt_Node.node a d pl) pd pr) =
      inorder (bt_Node.node a d (bt_Node.node pl pd pr)) := by simp [inorder]
  have e2 : inorder (bt_Node.node pl pd (bt_Node.node pr d a)) =
      inorder (bt_Node.node (bt_Node.node pl pd pr) d a) := by simp [inorder]
  refine ⟨rfl, rfl, e1, e2, ?_, ?_, ?_, ?_⟩
  · rw [← length_inorder, ← length_inorder, e1]
  · rw [← length_inorder, ← length_inorder, e2]
  · rw [Bool.eq_iff_iff, bst_iff_pairwise compare hc, bst_iff_pairwise compare hc, e1]
  · rw [Bool.eq_iff_iff, bst_iff_pairwise compare hc, bst_iff_pairwise compare hc, e2]

/-- Witness for C16: the right-leaning chain 1, 2, 3 rotated left, and the
result rotated right again. -/
theorem rotations_keep_inorder_witness :
    _rotate_left (right_chain 3 1) = some (bt_Node.node (int_leaf 1) 2 (int_leaf 3)) ∧
      _rotate_right (bt_Node.node (int_leaf 1) 2 (int_leaf 3)) = some (right_chain 3 1) ∧
      inorder (bt_Node.node (int_leaf 1) 2 (int_leaf 3)) = [1, 2, 3] ∧
      inorder (right_chain 3 1) = [1, 2, 3] ∧
      is_bst _cmp_int (bt_Node.node (int_leaf 1) 2 (int_leaf 3)) = true ∧
      is_bst _cmp_int (right_chain 3 1) = true :=
  have h := rotations_keep_inorder _cmp_int cmp_int_strict_total bt_Node.nil bt_Node.nil
    (int_leaf 3) 1 2
  ⟨h.1, by decide, by decide, by decide, by decide, by decide⟩

theorem depth_or_zero_int (t : bt_Node α) :
    (if t.isNull then (0 : Int) else (_depth_at t : Int)) = (_depth_at t : Int) := by
  cases t <;> simp [bt_Node.isNull, _depth_at]

theorem is_balanced_node (l r : bt_Node α) (d : α) :
    _is_balanced (bt_Node.node l d r) = true ↔
      (_depth_at l ≤ _depth_at r + 1 ∧ _depth_at r ≤ _depth_at l + 1) ∧
        _is_balanced l = true ∧ _is_balanced r = true := by
  simp only [_is_balanced, depth_or_zero_int, Bool.and_eq_true, decide_eq_true_eq, abs_le,
    and_assoc]
  constructor
  · rintro ⟨h1, h2, h3, h4⟩
    exact ⟨by omega, by omega, h3, h4⟩
  · rintro ⟨h1, h2, h3, h4⟩
    exact ⟨by omega, by omega, h3, h4⟩

theorem every_node_balanced_node (l r : bt_Node α) (d : α) :
    every_node_balanced (bt_Node.node l d r) ↔
      height_gap_ok (bt_Node.node l d r) ∧ every_node_balanced l ∧ every_node_balanced r := by
  simp only [every_node_balanced, walk, List.mem_cons, List.mem_append]
  constructor
  · intro h
    exact ⟨h _ (Or.inl rfl), fun n hn => h n (Or.inr (Or.inl hn)),
      fun n hn => h n (Or.inr (Or.inr hn))⟩
  · rintro ⟨h0, h1, h2⟩ n hn
    rcases hn with e | e | e
    · rw [e]; exact h0
    · exact h1 n e
    · exact h2 n e

theorem is_balanced_iff (t : bt_Node α) :
    _is_balanced t = true ↔ every_node_balanced t := by
  induction t with
  | nil => simp [_is_balanced, every_node_balanced, walk]
  | node l d r ihl ihr =>
    rw [is_balanced_node, every_node_balanced_node, ihl, ihr]
    rfl

/-- C17: `bt_is_balanced` returns true exactly when, at every node of the tree,
the heights of the left and of the right subtree (`_depth_at`, 0 for an empty
subtree) differ by at most 1; it returns true on the empty tree. -/
theorem is_balanced_every_node (tree : bt_Tree α) :
    (bt_is_balanced tree = true ↔
        ∀ l d r, bt_Node.node l d r ∈ walk TraversalStrategy.PRE_ORDER tree.root →
          _depth_at l ≤ _depth_at r + 1 ∧ _depth_at r ≤ _depth_at l + 1) ∧
      bt_is_balanced (bt_create tree.compare) = true ∧
      _depth_at (bt_Node.nil : bt_Node α) = 0 := by
  refine ⟨?_, rfl, rfl⟩
  rw [bt_is_balanced, is_balanced_iff]
  constructor
  · intro h l d r hn
    exact h _ hn
  · intro h n hn
    cases n with
    | nil => trivial
    | node l d r => exact h l d r hn

/-! ## The loop of the balance pass: pivots and the history index -/

theorem balance_frames_root (n : Nat) :
    ∀ (f : BalanceFrame α), f.root ≠ bt_Node.nil →
      ∀ g ∈ balance_frames n f, g.root ≠ bt_Node.nil := by
  induction n with
  | zero => intro f _ g hg; simp [balance_frames] at hg
  | succ n ih =>
    intro f hf g hg
    simp only [balance_frames, List.mem_cons] at hg
    rcases hg with e | hg
    · rw [e]; exact hf
    · cases hiter : balance_iter f with
      | exit r => simp [hiter] at hg
      | fault => simp [hiter] at hg
      | next f1 =>
        simp only [hiter] at hg
        refine ih f1 ?_ g hg
        intro h0
        have hin := (balance_iter_next f f1 hiter).1
        rw [h0] at hin
        cases hroot : f.root with
        | nil => exact hf hroot
        | node l d r => simp [hroot, inorder] at hin

/-- C20: wherever the loop of `_balance` stands at a non-null root, the guard
`right_depth > left_depth + 1` implies that the right child is present and
`_rotate_left` finds its pivot, and `left_depth > right_depth + 1` implies that the
left child is present and `_rotate_right` finds its pivot; so a pass through the
loop body goes wrong only through the history write (`history_curr` at least
`HISTORY_LEN`), the root it hands to the next pass is again non-null, and this
holds at every pass of the loop. -/
theorem rotation_has_pivot (f : BalanceFrame α) (l r : bt_Node α) (d : α)
    (hroot : f.root = bt_Node.node l d r) :
    (_depth_at r > _depth_at l + 1 →
        r ≠ bt_Node.nil ∧ (_rotate_left f.root).isSome = true) ∧
      (_depth_at l > _depth_at r + 1 →
        l ≠ bt_Node.nil ∧ (_rotate_right f.root).isSome = true) ∧
      (balance_iter f = LoopStep.fault → HISTORY_LEN ≤ f.history_curr) ∧
      (∀ f1, balance_iter f = LoopStep.next f1 → f1.root ≠ bt_Node.nil) ∧
      (∀ n, ∀ g ∈ balance_frames n f, g.root ≠ bt_Node.nil) := by
  have hleft : _depth_at r > _depth_at l + 1 →
      r ≠ bt_Node.nil ∧ (_rotate_left f.root).isSome = true := by
    intro h
    cases r with
    | nil => simp [_depth_at] at h
    | node pl pd pr => rw [hroot]; exact ⟨by simp, rfl⟩
  have hright : _depth_at l > _depth_at r + 1 →
      l ≠ bt_Node.nil ∧ (_rotate_right f.root).isSome = true := by
    intro h
    cases l with
    | nil => simp [_depth_at] at h
    | node pl pd pr => rw [hroot]; exact ⟨by simp, rfl⟩
  have hne : f.root ≠ bt_Node.nil := by rw [hroot]; simp
  refine ⟨hleft, hright, ?_, ?_, fun n => balance_frames_root n f hne⟩
  · intro hfault
    rw [balance_iter_node f l r d hroot] at hfault
    by_cases hlt : f.history_curr < HISTORY_LEN
    · exfalso
      split_ifs at hfault with h0 h1 h2
      · have := (hleft h1).2
        rw [hroot] at this
        cases hr : _rotate_left (bt_Node.node l d r) with
        | none => simp [hr] at this
        | some t => simp [hr] at hfault
      · have := (hright h2).2
        rw [hroot] at this
        cases hr : _rotate_right (bt_Node.node l d r) with
        | none => simp [hr] at this
        | some t => simp [hr] at hfault
    · omega
  · intro f1 hnext h0
    have hin := (balance_iter_next f f1 hnext).1
    rw [h0, hroot] at hin
    simp [inorder] at hin

/-- Witness for C20: the first pass of the loop at the right-leaning chain 1, 2, 3. -/
theorem rotation_has_pivot_witness :
    (balance_init (right_chain 3 1)).root =
        bt_Node.node bt_Node.nil 1 (bt_Node.node bt_Node.nil 2 (int_leaf 3)) ∧
      _depth_at (bt_Node.node bt_Node.nil 2 (int_leaf 3)) > _depth_at (bt_Node.nil : bt_Node Int) + 1 ∧
      (_rotate_left (balance_init (right_chain 3 1)).root).isSome = true ∧
      balance_node (right_chain 3 1) = some (bt_Node.node (int_leaf 1) 2 (int_leaf 3)) :=
  have h := rotation_has_pivot (balance_init (right_chain 3 1)) bt_Node.nil
    (bt_Node.node bt_Node.nil 2 (int_leaf 3)) 1 rfl
  ⟨rfl, by decide, (h.1 (by decide)).2, by decide⟩

theorem balance_frames_index (n : Nat) :
    ∀ (f : BalanceFrame α),
      (balance_frames n f).map (fun g => g.history_curr) =
        List.range' f.history_curr (balance_frames n f).length := by
  induction n with
  | zero => intro f; rfl
  | succ n ih =>
    intro f
    cases hiter : balance_iter f with
    | exit r => simp [balance_frames, hiter, List.range']
    | fault => simp [balance_frames, hiter, List.range']
    | next f1 =>
      have hnext := (balance_iter_next f f1 hiter).2.2
      simp only [balance_frames, hiter, List.map_cons, List.length_cons, List.range', ih f1,
        hnext]

/-- C18: the update `history_curr + 1 % HISTORY_LEN` is `history_curr + 1` for
every value, so each pass that rotates advances the write index by one and the
pass after `k` rotations has write index `k`; on the right-leaning chain of 13
nodes the loop at the root rotates at write indices 0, 1, 2, 3, 4 and a sixth
time at write index 5, outside the 5-slot history arrays. -/
theorem history_index_not_wrapped :
    (∀ c : Nat, c + 1 % HISTORY_LEN = c + 1) ∧
      (∀ (f f1 : BalanceFrame α), balance_iter f = LoopStep.next f1 →
        f1.history_curr = f.history_curr + 1) ∧
      (∀ (n : Nat) (t : bt_Node α),
        (balance_frames n (balance_init t)).map (fun g => g.history_curr) =
          List.range (balance_frames n (balance_init t)).length) ∧
      node_count (right_chain 13 1) = 13 ∧
      (balance_frames 7 (balance_init (right_chain 13 1))).map
          (fun g => (g.history_curr, child_depths g.root)) =
        [(0, (0, 12)), (1, (1, 11)), (2, (2, 10)), (3, (3, 9)), (4, (4, 8)), (5, (5, 7))] ∧
      (balance_frames 7 (balance_init (right_chain 13 1))).all
          (fun g => decide ((child_depths g.root).2 > (child_depths g.root).1 + 1) &&
            (_rotate_left g.root).isSome &&
            !decide ((g.left_history.getD 0 0, g.right_history.getD 0 0) = child_depths g.root)) =
        true ∧
      balance_node (right_chain 13 1) = none := by
  refine ⟨fun c => by simp [HISTORY_LEN], fun f f1 h => (balance_iter_next f f1 h).2.2, ?_,
    by decide, by decide, by decide, by decide⟩
  intro n t
  rw [balance_frames_index n (balance_init t), List.range_eq_range']
  rfl

/-! ## A loop that its guard does not stop -/

theorem getD_zero_set (xs : List Nat) (i v : Nat) (hi : 1 ≤ i) :
    (xs.set i v).getD 0 0 = xs.getD 0 0 := by
  cases xs with
  | nil => rfl
  | cons x xs =>
    cases i with
    | zero => omega
    | succ j => rfl

/-- While slot 0 of the history holds (4, 0), a pass of the loop at `zigzag_high`
or `zigzag_low` never breaks: it rotates to the other of the two node graphs, or
it goes wrong at the history write. -/
theorem zigzag_cycle_step (f : BalanceFrame Int) (h : zigzag_cycle f) :
    (∀ r, balance_iter f ≠ LoopStep.exit r) ∧
      (∀ f1, balance_iter f = LoopStep.next f1 → zigzag_cycle f1) := by
  obtain ⟨hroot, h1, h2, h3⟩ := h
  rcases hroot with hroot | hroot
  · have e := balance_iter_node f _ _ _ hroot
    have d1 : _depth_at (bt_Node.node bt_Node.nil 6 (bt_Node.node (int_leaf 7) 8 bt_Node.nil)) = 3 := by
      decide
    have d2 : _depth_at (int_leaf 10) = 1 := by decide
    have r1 : _rotate_right (bt_Node.node
        (bt_Node.node bt_Node.nil 6 (bt_Node.node (int_leaf 7) 8 bt_Node.nil)) 9 (int_leaf 10)) =
        some zigzag_low := rfl
    rw [d1, d2, h1, h2, r1] at e
    by_cases hlt : f.history_curr < HISTORY_LEN
    · simp [hlt] at e
      rw [e]
      refine ⟨fun r hr => (by cases hr), ?_⟩
      intro f1 hf1
      cases hf1
      exact ⟨Or.inr rfl, by simp only [getD_zero_set _ _ _ h3, h1],
        by simp only [getD_zero_set _ _ _ h3, h2], Nat.le_add_left 1 f.history_curr⟩
    · simp [hlt] at e
      rw [e]
      exact ⟨fun r hr => (by cases hr), fun f1 hf1 => (by cases hf1)⟩
  · have e := balance_iter_node f _ _ _ hroot
    have d1 : _depth_at (bt_Node.nil : bt_Node Int) = 0 := rfl
    have d2 : _depth_at (bt_Node.node (bt_Node.node (int_leaf 7) 8 bt_Node.nil) 9 (int_leaf 10)) = 3 := by
      decide
    have r1 : _rotate_left (bt_Node.node bt_Node.nil 6
        (bt_Node.node (bt_Node.node (int_leaf 7) 8 bt_Node.nil) 9 (int_leaf 10))) =
        some zigzag_high := rfl
    rw [d1, d2, h1, h2, r1] at e
    by_cases hlt : f.history_curr < HISTORY_LEN
    · simp [hlt] at e
      rw [e]
      refine ⟨fun r hr => (by cases hr), ?_⟩
      intro f1 hf1
      cases hf1
      exact ⟨Or.inl rfl, by simp only [getD_zero_set _ _ _ h3, h1],
        by simp only [getD_zero_set _ _ _ h3, h2], Nat.le_add_left 1 f.history_curr⟩
    · simp [hlt] at e
      rw [e]
      exact ⟨fun r hr => (by cases hr), fun f1 hf1 => (by cases hf1)⟩

/-- C11 at a failing input: the tree built by `bt_add` of 10, 1, 9, 5, 4, 3, 2, 6,
8, 7 (every call returns) and then `bt_balance`.  The pass reaches the subtree
`left_zigzag`; after the first rotation there the loop alternates between two node
graphs with depth pairs (3, 1) and (0, 3) while slot 0 of the history holds
(4, 0), so neither the depth test nor the guard ever breaks the loop, and the
sixth rotation writes outside the history arrays: `bt_balance` does not return. -/
theorem balance_does_not_terminate :
    (bt_add_all bt_create_int [10, 1, 9, 5, 4, 3, 2, 6, 8, 7]).isSome = true ∧
      ((bt_add_all bt_create_int [10, 1, 9, 5, 4, 3, 2, 6, 8, 7]).bind bt_balance).isNone = true ∧
      (∃ f1, balance_iter (balance_init left_zigzag) = LoopStep.next f1 ∧ zigzag_cycle f1) ∧
      (∀ f, zigzag_cycle f → (∀ r, balance_iter f ≠ LoopStep.exit r) ∧
        (∀ f1, balance_iter f = LoopStep.next f1 → zigzag_cycle f1)) ∧
      (balance_frames 7 (balance_init left_zigzag)).map
          (fun f => (f.history_curr, child_depths f.root)) =
        [(0, (4, 0)), (1, (3, 1)), (2, (0, 3)), (3, (3, 1)), (4, (0, 3)), (5, (3, 1))] ∧
      balance_node left_zigzag = none := by
  refine ⟨by decide, by decide, ?_, zigzag_cycle_step, by decide, by decide⟩
  refine ⟨{ root := zigzag_high, left_history := [4, 0, 0, 0, 0],
            right_history := [0, 0, 0, 0, 0], history_curr := 1 }, rfl, ?_⟩
  exact ⟨Or.inl rfl, rfl, rfl, Nat.le_refl _⟩

/-! ## Where insertion and collapse-delete change the node graph -/

theorem payload_at_nil (p : List Bool) : payload_at (bt_Node.nil : bt_Node α) p = none := by
  cases p <;> rfl

theorem clear_path_end (t : bt_Node α) :
    payload_at (_clear t) (left_preferred_path t) = none := by
  induction t with
  | nil => rfl
  | node l d r ihl ihr =>
    cases l with
    | node ll ld lr => simpa [_clear, left_preferred_path, payload_at] using ihl
    | nil =>
      cases r with
      | nil => rfl
      | node rl rd rr => simpa [_clear, left_preferred_path, payload_at] using ihr

theorem clear_path_shift (t : bt_Node α) :
    ∀ (p q : List Bool) (b : Bool), left_preferred_path t = p ++ b :: q →
      payload_at (_clear t) p = payload_at t (p ++ [b]) := by
  induction t with
  | nil => intro p q b h; cases p <;> simp [left_preferred_path] at h
  | node l d r ihl ihr =>
    intro p q b h
    cases l with
    | node ll ld lr =>
      simp only [left_preferred_path] at h
      cases p with
      | nil =>
        simp only [List.nil_append, List.cons.injEq] at h
        rw [← h.1]
        rfl
      | cons c p1 =>
        simp only [List.cons_append, List.cons.injEq] at h
        rw [← h.1]
        simpa [_clear, payload_at] using ihl p1 q b h.2
    | nil =>
      cases r with
      | nil => cases p <;> simp [left_preferred_path] at h
      | node rl rd rr =>
        simp only [left_preferred_path] at h
        cases p with
        | nil =>
          simp only [List.nil_append, List.cons.injEq] at h
          rw [← h.1]
          rfl
        | cons c p1 =>
          simp only [List.cons_append, List.cons.injEq] at h
          rw [← h.1]
          simpa [_clear, payload_at] using ihr p1 q b h.2

theorem clear_off_path (t : bt_Node α) :
    ∀ (p : List Bool), ¬ p <+: left_preferred_path t →
      payload_at (_clear t) p = payload_at t p := by
  induction t with
  | nil => intro p _; rfl
  | node l d r ihl ihr =>
    intro p hp
    cases l with
    | node ll ld lr =>
      simp only [left_preferred_path] at hp
      cases p with
      | nil => exact absurd (List.nil_prefix) hp
      | cons c p1 =>
        cases c with
        | false =>
          have := ihl p1 (fun h => hp ((List.prefix_cons_inj false).mpr h))
          simpa [_clear, payload_at] using this
        | true => rfl
    | nil =>
      cases r with
      | nil =>
        cases p with
        | nil => exact absurd (List.nil_prefix) hp
        | cons c p1 => cases c <;> simp [_clear, payload_at, payload_at_nil]
      | node rl rd rr =>
        simp only [left_preferred_path] at hp
        cases p with
        | nil => exact absurd (List.nil_prefix) hp
        | cons c p1 =>
          cases c with
          | false => simp [_clear, payload_at, payload_at_nil]
          | true =>
            have := ihr p1 (fun h => hp ((List.prefix_cons_inj true).mpr h))
            simpa [_clear, payload_at] using this

/-- C14: `_clear` on a node with a left child copies the left child's payload into
the node and collapses the left child; otherwise with a right child it copies the
right child's payload and collapses the right child; otherwise the leaf is removed
and its slot becomes empty.  So the node graph loses one node, the leaf at the end
of the left-preferred path; every position on that path takes the payload of the
next position on it; every position off the path keeps what it held. -/
theorem clear_promotes_child (l r : bt_Node α) (d : α) :
    (∀ ll ld lr, l = bt_Node.node ll ld lr →
        _clear (bt_Node.node l d r) = bt_Node.node (_clear l) ld r) ∧
      (∀ rl rd rr, l = bt_Node.nil → r = bt_Node.node rl rd rr →
        _clear (bt_Node.node l d r) = bt_Node.node bt_Node.nil rd (_clear r)) ∧
      (l = bt_Node.nil → r = bt_Node.nil → _clear (bt_Node.node l d r) = bt_Node.nil) ∧
      node_count (_clear (bt_Node.node l d r)) + 1 = node_count (bt_Node.node l d r) ∧
      payload_at (_clear (bt_Node.node l d r)) (left_preferred_path (bt_Node.node l d r)) = none ∧
      (∀ (p q : List Bool) (b : Bool), left_preferred_path (bt_Node.node l d r) = p ++ b :: q →
        payload_at (_clear (bt_Node.node l d r)) p = payload_at (bt_Node.node l d r) (p ++ [b])) ∧
      (∀ p : List Bool, ¬ p <+: left_preferred_path (bt_Node.node l d r) →
        payload_at (_clear (bt_Node.node l d r)) p = payload_at (bt_Node.node l d r) p) := by
  refine ⟨?_, ?_, ?_, clear_count _ (by simp), clear_path_end _, clear_path_shift _,
    clear_off_path _⟩
  · intro ll ld lr h; subst h; rfl
  · intro rl rd rr h1 h2; subst h1; subst h2; rfl
  · intro h1 h2; subst h1; subst h2; rfl

/-- Witness for C14: from the tree built from 4, 3, 5, removing 4 leaves root
payload 3 with right child 5 and count 2; from the tree built from 3, 4, 5,
removing 3 leaves root payload 4 with right child 5 and count 2. -/
theorem clear_promotes_child_witness :
    _clear three_ints = bt_Node.node bt_Node.nil 3 (int_leaf 5) ∧
      left_preferred_path three_ints = [false] ∧
      bt_add_all bt_create_int [4, 3, 5] = some (int_tree three_ints 3) ∧
      (bt_remove (int_tree three_ints 3) 4).map (fun p => (p.2, p.1.count, p.1.root)) =
        some (true, 2, bt_Node.node bt_Node.nil 3 (int_leaf 5)) ∧
      bt_add_all bt_create_int [3, 4, 5] = some (int_tree three_ints 3) ∧
      (bt_remove (int_tree three_ints 3) 3).map (fun p => (p.2, p.1.count, p.1.root)) =
        some (true, 2, bt_Node.node bt_Node.nil 4 (int_leaf 5)) :=
  ⟨(clear_promotes_child (int_leaf 3) (int_leaf 5) 4).1 bt_Node.nil 3 bt_Node.nil rfl,
    rfl, rfl, by decide, rfl, by decide⟩

theorem balance_node_balanced (l r : bt_Node α) (d : α)
    (h : _depth_at l ≤ _depth_at r + 1 ∧ _depth_at r ≤ _depth_at l + 1) :
    balance_node (bt_Node.node l d r) = some (bt_Node.node l d r) := by
  have e := balance_iter_node (balance_init (bt_Node.node l d r)) l r d rfl
  have h1 : ¬ _depth_at r > _depth_at l + 1 := by omega
  have h2 : ¬ _depth_at l > _depth_at r + 1 := by omega
  simp only [h1, h2, if_false, ite_self] at e
  simp only [balance_node, HISTORY_LEN, balance_loop]
  rw [e]

theorem balance_rec_balanced (fuel : Nat) :
    ∀ (t : bt_Node α), node_count t ≤ fuel → _is_balanced t = true →
      balance_rec fuel t = some t := by
  induction fuel with
  | zero =>
    intro t hn _
    cases t with
    | nil => rfl
    | node l d r => simp [node_count] at hn
  | succ n ih =>
    intro t hn hb
    cases t with
    | nil => rfl
    | node l d r =>
      obtain ⟨hgap, hl, hr⟩ := (is_balanced_node l r d).mp hb
      simp only [node_count] at hn
      simp only [balance_rec, balance_node_balanced l r d hgap, ih l (by omega) hl,
        ih r (by omega) hr, Option.some_bind]

theorem balance_balanced (t : bt_Node α) (h : _is_balanced t = true) : _balance t = some t :=
  balance_rec_balanced _ t (Nat.le_refl _) h

/-- C21: on every tree for which the balance pass completes, `bt_balance` changes
only the shape: the left-to-right payload sequence and the number of nodes are
those from before the pass, `count` and the comparator are untouched, so `count`
is the number of nodes afterwards if it was before (and then the `IN_ORDER`
output of `bt_traverse` is the same), and under a strict-total-order comparator
the ordering invariant holds afterwards exactly when it held before. -/
theorem balance_changes_only_shape (tree tree1 : bt_Tree α)
    (h : bt_balance tree = some tree1) :
    inorder tree1.root = inorder tree.root ∧
      node_count tree1.root = node_count tree.root ∧
      tree1.count = tree.count ∧ tree1.compare = tree.compare ∧
      (tree.count = node_count tree.root → tree1.count = node_count tree1.root ∧
        traversal_payloads tree1 TraversalStrategy.IN_ORDER =
          traversal_payloads tree TraversalStrategy.IN_ORDER ∧
        traversal_payloads tree1 TraversalStrategy.IN_ORDER = some (inorder tree.root)) ∧
      (StrictTotalCompare tree.compare →
        is_bst tree1.compare tree1.root = is_bst tree.compare tree.root) := by
  simp only [bt_balance, Option.map_eq_some'] at h
  obtain ⟨root1, hbal, ht⟩ := h
  subst ht
  have hin := balance_inorder _ _ hbal
  have hn := balance_node_count _ _ hbal
  refine ⟨hin, hn, rfl, rfl, ?_, ?_⟩
  · intro hc
    have hc1 : tree.count = node_count root1 := by rw [hn]; exact hc
    have e1 := traversal_payloads_in
      ({ root := root1, count := tree.count, compare := tree.compare } : bt_Tree α) hc1
    simp only at e1
    refine ⟨hc1, ?_, ?_⟩
    · rw [e1, traversal_payloads_in tree hc, hin]
    · rw [e1, hin]
  · intro hs
    rw [Bool.eq_iff_iff, bst_iff_pairwise _ hs, bst_iff_pairwise _ hs]
    simp only [hin]

/-- Witness for C21: the balance pass on the tree built from 4, 1, 2, 3 rotates
the root and keeps the payload sequence 1, 2, 3, 4. -/
theorem balance_changes_only_shape_witness :
    bt_balance (int_tree four_ints 4) = some (int_tree four_ints_rotated 4) ∧
      four_ints_rotated ≠ four_ints ∧
      inorder four_ints_rotated = inorder four_ints ∧
      inorder four_ints = [1, 2, 3, 4] ∧
      node_count four_ints_rotated = node_count four_ints ∧
      is_bst _cmp_int four_ints_rotated = is_bst _cmp_int four_ints ∧
      is_bst _cmp_int four_ints = true :=
  have h := balance_changes_only_shape (int_tree four_ints 4) (int_tree four_ints_rotated 4) rfl
  ⟨rfl, by decide, h.1, by decide, h.2.1, h.2.2.2.2.2 cmp_int_strict_total, by decide⟩

theorem rotate_left_depth (l r t1 : bt_Node α) (d : α)
    (hg : _depth_at r > _depth_at l + 1)
    (h : _rotate_left (bt_Node.node l d r) = some t1) :
    _depth_at t1 ≤ _depth_at (bt_Node.node l d r) := by
  cases r with
  | nil => simp [_rotate_left] at h
  | node pl pd pr =>
    simp only [_rotate_left, Option.some.injEq] at h
    subst h
    simp only [depth_at_node] at hg ⊢
    omega

theorem rotate_right_depth (l r t1 : bt_Node α) (d : α)
    (hg : _depth_at l > _depth_at r + 1)
    (h : _rotate_right (bt_Node.node l d r) = some t1) :
    _depth_at t1 ≤ _depth_at (bt_Node.node l d r) := by
  cases l with
  | nil => simp [_rotate_right] at h
  | node pl pd pr =>
    simp only [_rotate_right, Option.some.injEq] at h
    subst h
    simp only [depth_at_node] at hg ⊢
    omega

theorem balance_iter_next_depth (f f1 : BalanceFrame α)
    (h : balance_iter f = LoopStep.next f1) : _depth_at f1.root ≤ _depth_at f.root := by
  cases hroot : f.root with
  | nil => simp [balance_iter, hroot] at h
  | node l d r =>
    rw [balance_iter_node f l r d hroot] at h
    by_cases h0 : f.left_history.getD 0 0 = _depth_at l ∧ f.right_history.getD 0 0 = _depth_at r
    · rw [if_pos h0] at h; cases h
    · simp only [h0, if_false] at h
      by_cases h1 : _depth_at r > _depth_at l + 1
      · simp only [h1, if_true] at h
        cases hr : _rotate_left (bt_Node.node l d r) with
        | none => simp [hr] at h
        | some root1 =>
          simp only [hr] at h
          split_ifs at h
          cases h
          exact rotate_left_depth l r root1 d h1 hr
      · simp only [h1, if_false] at h
        by_cases h2 : _depth_at l > _depth_at r + 1
        · simp only [h2, if_true] at h
          cases hr : _rotate_right (bt_Node.node l d r) with
          | none => simp [hr] at h
          | some root1 =>
            simp only [hr] at h
            split_ifs at h
            cases h
            exact rotate_right_depth l r root1 d h2 hr
        · simp [h2] at h

theorem balance_loop_depth (fuel : Nat) :
    ∀ (f : BalanceFrame α) (root : bt_Node α), balance_loop fuel f = some root →
      _depth_at root ≤ _depth_at f.root := by
  induction fuel with
  | zero => intro f root h; simp [balance_loop] at h
  | succ n ih =>
    intro f root h
    simp only [balance_loop] at h
    split at h
    · rename_i r hiter
      cases h
      rw [balance_iter_exit f _ hiter]
    · rename_i f1 hiter
      exact Nat.le_trans (ih f1 root h) (balance_iter_next_depth f f1 hiter)
    · cases h

theorem balance_rec_depth (fuel : Nat) :
    ∀ (t t1 : bt_Node α), balance_rec fuel t = some t1 → _depth_at t1 ≤ _depth_at t := by
  induction fuel with
  | zero =>
    intro t t1 h
    cases t with
    | nil => simp only [balance_rec, Option.some.injEq] at h; subst h; exact Nat.le_refl _
    | node l d r => simp [balance_rec] at h
  | succ n ih =>
    intro t t1 h
    cases t with
    | nil => simp only [balance_rec, Option.some.injEq] at h; subst h; exact Nat.le_refl _
    | node l d r =>
      simp only [balance_rec] at h
      split at h
      · cases h
      · cases h
      · rename_i l1 d1 r1 hnode
        cases hl : balance_rec n l1 with
        | none => simp [hl] at h
        | some l2 =>
          cases hr : balance_rec n r1 with
          | none => simp [hl, hr] at h
          | some r2 =>
            simp only [hl, hr, Option.some_bind, Option.some.injEq] at h
            subst h
            have h0 := balance_loop_depth _ _ _ hnode
            have h1 := ih l1 l2 hl
            have h2 := ih r1 r2 hr
            simp only [balance_init, depth_at_node] at h0 ⊢
            omega

/-- C22: a balance pass never makes a tree taller: whenever `_balance` completes,
the height (`_depth_at`) of the resulting tree is at most the height of the input
tree, and so for `bt_balance`; a left rotation applied under the guard
`right_depth > left_depth + 1`, and a right rotation applied under the mirror
guard, does not increase the height of the subtree it is applied to. -/
theorem balance_not_taller (t t1 : bt_Node α) (h : _balance t = some t1) :
    _depth_at t1 ≤ _depth_at t ∧
      (∀ tree tree1 : bt_Tree α, bt_balance tree = some tree1 →
        _depth_at tree1.root ≤ _depth_at tree.root) ∧
      (∀ (l r s : bt_Node α) (d : α), _depth_at r > _depth_at l + 1 →
        _rotate_left (bt_Node.node l d r) = some s →
        _depth_at s ≤ _depth_at (bt_Node.node l d r)) ∧
      (∀ (l r s : bt_Node α) (d : α), _depth_at l > _depth_at r + 1 →
        _rotate_right (bt_Node.node l d r) = some s →
        _depth_at s ≤ _depth_at (bt_Node.node l d r)) := by
  refine ⟨balance_rec_depth _ _ _ h, ?_, fun l r s d hg hs => rotate_left_depth l r s d hg hs,
    fun l r s d hg hs => rotate_right_depth l r s d hg hs⟩
  intro tree tree1 hb
  simp only [bt_balance, Option.map_eq_some'] at hb
  obtain ⟨root1, hbal, ht⟩ := hb
  subst ht
  exact balance_rec_depth _ _ _ hbal

/-- Witness for C22: the right-leaning chain 1, 2, 3, 4, 5 of height 5 is balanced
into a tree of height 3. -/
theorem balance_not_taller_witness :
    (_balance (right_chain 5 1)).map (fun s => _depth_at s) = some 3 ∧
      _depth_at (right_chain 5 1) = 5 ∧
      _depth_at (bt_Node.node (bt_Node.node (int_leaf 1) 2 bt_Node.nil) 3
        (bt_Node.node bt_Node.nil 4 (int_leaf 5))) ≤ _depth_at (right_chain 5 1) :=
  ⟨by decide, by decide,
    (balance_not_taller (right_chain 5 1)
      (bt_Node.node (bt_Node.node (int_leaf 1) 2 bt_Node.nil) 3
        (bt_Node.node bt_Node.nil 4 (int_leaf 5))) (by decide)).1⟩

/-! ## Rejected calls on a balanced tree -/

/-- Under a strict-total-order comparator, `_add` of a payload that compares equal
to an entry of an ordered node graph returns 0 and leaves the graph as it was. -/
theorem present_add_leaves_graph (compare : α → α → Int) (hc : StrictTotalCompare compare)
    (t : bt_Node α) (x : α) (hb : is_bst compare t = true)
    (hx : ∃ e ∈ inorder t, compare x e = 0) : _add compare t x = (t, 0) := by
  obtain ⟨e, he, hxe⟩ := hx
  have hmem : x ∈ inorder t := by
    rw [(hc.eq_iff x e).mp hxe]; exact he
  have h0 := add_present compare hc t x hb hmem
  rcases add_result compare t x with ⟨_, a1⟩ | ⟨a0, _⟩
  · exact Prod.ext a1 h0
  · omega

/-- On a tree built by fewer than `2^64` calls of `bt_add` that is balanced at
every node, a `bt_add` of a payload already present returns false and leaves the
tree exactly as it was. -/
theorem rejected_add_on_balanced_tree (compare : α → α → Int)
    (hc : StrictTotalCompare compare) (xs : List α) (t : bt_Tree α) (x : α)
    (hlen : xs.length < SIZE_MOD)
    (hreach : bt_add_all (bt_create compare) xs = some t)
    (hx : ∃ e ∈ inorder t.root, t.compare x e = 0)
    (hbal : bt_is_balanced t = true) :
    bt_add t x = some (t, false) := by
  obtain ⟨hcmp, _, hlt, hbst⟩ := bt_add_all_reach compare hc xs t hlen hreach
  have h0 : _add t.compare t.root x = (t.root, 0) := by
    rw [hcmp] at hx ⊢
    exact present_add_leaves_graph compare hc t.root x hbst hx
  simp only [bt_add, h0, Nat.add_zero, Nat.mod_eq_of_lt hlt, balance_balanced _ hbal,
    Option.map_some']
  rfl

/-- On a tree built by fewer than `2^64` calls of `bt_add` that is balanced at
every node, a `bt_remove` of a payload that compares equal to no entry returns
false and leaves the tree exactly as it was. -/
theorem failed_remove_on_balanced_tree (compare : α → α → Int) (xs : List α)
    (t : bt_Tree α) (v : α)
    (hlen : xs.length < SIZE_MOD)
    (hreach : bt_add_all (bt_create compare) xs = some t)
    (hv : ∀ e ∈ inorder t.root, t.compare v e ≠ 0)
    (hbal : bt_is_balanced t = true) :
    bt_remove t v = some (t, false) := by
  obtain ⟨_, hlt⟩ := bt_add_all_count xs (bt_create compare) t 0 rfl (Nat.le_refl _)
    (by simpa using hlen) hreach
  have h0 := remove_absent t.compare t.root v hv
  have e0 : t.count + SIZE_MOD - 0 % SIZE_MOD = t.count + SIZE_MOD := by simp
  simp only [bt_remove, h0, e0, Nat.add_mod_right, Nat.mod_eq_of_lt hlt,
    balance_balanced _ hbal, Option.map_some']
  rfl

end Claims
